import Mathlib

/-!
# ipapk: metadata extraction from `.apk` / `.ipa` archives

A shallow embedding of `parser.go` (package `ipapk`): the archive scan and dispatch of
`NewAppParser`, the parsers `parseApkFile`, `parseApkIconAndLabel`, `parseIpaFile`,
`parseIpaIcon`, and the URL rewrite `StoreURL.Cn`.

* Archive entry names are Lean `String`s; the functions that inspect them work on the
  list of runes `String.data`.
* A Go pair `(*T, error)` is a pair `Option T × Option GoError`: `none` is `nil`.
* Everything outside the repository that touches the world (the file system,
  `archive/zip`, the `androidbinary`, `plist`, `iospng`, `image/png` packages) is a
  field of `Env` or of the handles it returns, so every theorem holds for all
  behaviours of those collaborators.
* The pure library functions on strings (`regexp` for the two patterns of the file,
  `strconv.ParseInt`, `filepath.Ext`, `strings`, `path`, `net/url`) are embedded as
  functions.
* A run-time panic (nil pointer dereference) is an explicit outcome.
-/

namespace Ipapk

/-! ## Data model -/

/-- The two causes of a `*strconv.NumError`: `strconv.ErrSyntax`, `strconv.ErrRange`. -/
inductive NumError where
  | ErrSyntax
  | ErrRange
deriving DecidableEq, Repr

/-- Go `error` values met in `parser.go`: the sentinel `ErrNoIcon`, values made by
`errors.New` in this package, the `*strconv.NumError` of `strconv.ParseInt`, and
errors handed back by the other library calls. -/
inductive GoError where
  | ErrNoIcon
  | new (msg : String)
  | num (e : NumError)
  | lib (msg : String)
deriving DecidableEq, Repr

/-- Raw bytes (`[]byte`). -/
abbrev Bytes := List Nat

/-- A decoded `image.Image` (only its identity matters here). -/
structure Image where
  pixels : List Nat
deriving DecidableEq, Repr

/-- The struct `AppInfo`; `new(AppInfo)` is the default value. -/
structure AppInfo where
  Name : String := ""
  BundleID : String := ""
  Version : String := ""
  Build : String := ""
  Icon : Option Image := none
  Size : Int := 0
deriving DecidableEq, Repr

/-- The struct `androidManifest`. -/
structure androidManifest where
  Package : String := ""
  VersionName : String := ""
  VersionCode : String := ""
deriving DecidableEq, Repr

/-- The struct `iosPlist`. -/
structure iosPlist where
  CFBundleName : String := ""
  CFBundleDisplayName : String := ""
  CFBundleVersion : String := ""
  CFBundleShortVersion : String := ""
  CFBundleIDentifier : String := ""
deriving DecidableEq, Repr

/-- The `io.ReadCloser` returned by `(*zip.File).Open`: what `ioutil.ReadAll` gives. -/
structure ReadCloser where
  readAll : Except GoError Bytes

/-- An archive entry `*zip.File`: its name and what `Open` returns. -/
structure ZipFile where
  Name : String
  Open : Except GoError ReadCloser

/-- The `os.FileInfo` returned by `file.Stat()`. -/
structure FileInfo where
  Name : String
  Size : Int

/-- An opened `*os.File`: the result of `Stat` and of `zip.NewReader` on it
(`reader.File`, the entries in archive order). -/
structure OsFile where
  Stat : Except GoError FileInfo
  zipNewReader : Except GoError (List ZipFile)

/-- The struct `androidbinary.ResTableConfig` (only `Density` is set). -/
structure ResTableConfig where
  Density : Nat
deriving DecidableEq, Repr

/-- An opened `*apk.Apk`: the results of `Icon` and `Label`. -/
structure Apk where
  Icon : ResTableConfig → Option Image × Option GoError
  Label : ResTableConfig → String × Option GoError

/-- The collaborators of `parser.go` that live outside the repository. -/
structure Env where
  /-- The call `os.Open`. -/
  osOpen : String → Except GoError OsFile
  /-- The call `apk.OpenFile`. -/
  apkOpenFile : String → Except GoError Apk
  /-- The call `androidbinary.NewXMLFile(bytes.NewReader(buf))`, giving the text of
  `xmlContent.Reader()`. -/
  NewXMLFile : Bytes → Except GoError Bytes
  /-- The call `xml.NewDecoder(r).Decode(manifest)` on a fresh `androidManifest`. -/
  xmlDecode : Bytes → Except GoError androidManifest
  /-- The call `plist.NewDecoder(bytes.NewReader(buf)).Decode(p)` on a fresh `iosPlist`. -/
  plistDecode : Bytes → Except GoError iosPlist
  /-- The bytes `iospng.PngRevertOptimization(rc, &w)` leaves in `w`. -/
  PngRevertOptimization : ReadCloser → Bytes
  /-- The call `png.Decode`. -/
  pngDecode : Bytes → Option Image × Option GoError

/-- The sentinel `ErrNoIcon = errors.New("icon not found")`. -/
def ErrNoIcon : GoError := GoError.ErrNoIcon

/-- The constant `iosExt`. -/
def iosExt : String := ".ipa"

/-- The constant `androidExt`. -/
def androidExt : String := ".apk"

/-! ## String helpers from the Go standard library -/

/-- Does `s` start with the literal `lit`? -/
def hasLit : List Char → List Char → Bool
  | [], _ => true
  | _ :: _, [] => false
  | a :: lit, c :: s => a == c && hasLit lit s

/-- Remove the literal `lit` from the front of `s`, if `s` starts with it. -/
def dropLit : List Char → List Char → Option (List Char)
  | [], s => some s
  | _ :: _, [] => none
  | a :: lit, c :: s => if a == c then dropLit lit s else none

/-- The function `strings.Contains` on rune lists. -/
def containsRunes : List Char → List Char → Bool
  | [], sub => hasLit sub []
  | c :: s, sub => hasLit sub (c :: s) || containsRunes s sub

/-- The function `strings.Contains`. -/
def Contains (s sub : String) : Bool := containsRunes s.data sub.data

/-- The function `filepath.Ext` (Unix path separator): the text from the last dot of
the last path element on, scanning backwards; `acc` is the text already scanned. -/
def extLoop : List Char → List Char → List Char
  | [], _ => []
  | c :: revRest, acc =>
    if c == '/' then []
    else if c == '.' then c :: acc
    else extLoop revRest (c :: acc)

/-- The function `filepath.Ext`. -/
def Ext (path : String) : String := String.mk (extLoop path.data.reverse [])

/-! ## The two regular expressions -/

/-- The regexp class `\d`: an ASCII digit. -/
def isDigit (c : Char) : Bool := c.isDigit

/-- The regexp atom `.`: any rune but the newline. -/
def dotMatches (c : Char) : Bool := c != Char.ofNat 10

/-- Backtracking match of `[^/]*/Info\.plist` (the tail of `reInfoPlist` once
`Payload/` and one rune of `[^/]+` are consumed). -/
def plistGreedy : List Char → Bool
  | [] => false
  | c :: rest => (c != '/' && plistGreedy rest) || hasLit "/Info.plist".data (c :: rest)

/-- Match of `Payload/[^/]+/Info\.plist` anchored at the front of the list. -/
def plistMatchAt (s : List Char) : Bool :=
  match dropLit "Payload/".data s with
  | some (c :: rest) => c != '/' && plistGreedy rest
  | _ => false

/-- Unanchored search for `Payload/[^/]+/Info\.plist` in a rune list. -/
def plistSearch : List Char → Bool
  | [] => false
  | c :: rest => plistMatchAt (c :: rest) || plistSearch rest

/-- The call `reInfoPlist.MatchString(name)`. -/
def reInfoPlistMatchString (name : String) : Bool := plistSearch name.data

/-- Match of `AppIcon-(\d{3}).+` anchored at the front of the list: the three
captured digits. The closing `.+` needs one rune that is not a newline. -/
def iconTail (s : List Char) : Option (List Char) :=
  match dropLit "AppIcon-".data s with
  | some (d1 :: d2 :: d3 :: c :: _) =>
    if isDigit d1 && isDigit d2 && isDigit d3 && dotMatches c then some [d1, d2, d3] else none
  | _ => none

/-- The leading `.+` of `prexRegexp` after its first rune: greedy, so one more rune
is tried first and the rest of the pattern only when that fails. -/
def iconGreedy : List Char → Option (List Char)
  | [] => none
  | c :: rest =>
    match (if dotMatches c then iconGreedy rest else none) with
    | some cap => some cap
    | none => iconTail (c :: rest)

/-- Match of `.+AppIcon-(\d{3}).+` anchored at the front of the list. -/
def iconMatchAt : List Char → Option (List Char)
  | [] => none
  | c :: rest => if dotMatches c then iconGreedy rest else none

/-- Leftmost match of `.+AppIcon-(\d{3}).+` in a rune list: the captured group. -/
def iconSearch : List Char → Option (List Char)
  | [] => none
  | c :: rest =>
    match iconMatchAt (c :: rest) with
    | some cap => some cap
    | none => iconSearch rest

/-- The call `prexRegexp.FindStringSubmatch(name)`: `some cap` stands for the
two-element slice `[whole, cap]` and `none` for the nil slice. -/
def FindStringSubmatch (name : String) : Option String :=
  (iconSearch name.data).map String.mk

/-! ## `strconv.ParseInt(s, 10, 64)` -/

/-- The largest `uint64`. -/
def maxUint64 : Nat := 2 ^ 64 - 1

/-- The digit loop of `strconv.ParseUint(s, 10, 64)`; `n` is the value so far. -/
def parseUintLoop : List Char → Nat → Nat × Option NumError
  | [], n => (n, none)
  | c :: cs, n =>
    if isDigit c then
      if n ≥ maxUint64 / 10 + 1 then (maxUint64, some NumError.ErrRange)
      else if n * 10 + (c.toNat - 48) > maxUint64 then (maxUint64, some NumError.ErrRange)
      else parseUintLoop cs (n * 10 + (c.toNat - 48))
    else (0, some NumError.ErrSyntax)

/-- The call `strconv.ParseUint(s, 10, 64)`. -/
def ParseUint (s : List Char) : Nat × Option NumError :=
  match s with
  | [] => (0, some NumError.ErrSyntax)
  | _ => parseUintLoop s 0

/-- The range check and sign of `strconv.ParseInt(s, 10, 64)` on the unsigned value. -/
def parseIntSigned (neg : Bool) (r : Nat × Option NumError) : Int × Option GoError :=
  match r with
  | (_, some NumError.ErrSyntax) => (0, some (GoError.num NumError.ErrSyntax))
  | (un, _) =>
    if !neg && un ≥ 2 ^ 63 then ((2 : Int) ^ 63 - 1, some (GoError.num NumError.ErrRange))
    else if neg && un > 2 ^ 63 then (-(2 : Int) ^ 63, some (GoError.num NumError.ErrRange))
    else if neg then (-(un : Int), none) else ((un : Int), none)

/-- The call `strconv.ParseInt(s, 10, 64)`. -/
def ParseInt (s : String) : Int × Option GoError :=
  match s.data with
  | [] => (0, some (GoError.num NumError.ErrSyntax))
  | c :: cs =>
    if c == '+' then parseIntSigned false (ParseUint cs)
    else if c == '-' then parseIntSigned true (ParseUint cs)
    else parseIntSigned false (ParseUint (c :: cs))

/-! ## The archive scan of `NewAppParser` -/

/-- The local variables of the scan loop: `xmlFile`, `plistFile`, `iosIconFile`,
`maxIosIconFile`, `x`, `y` and `err`. -/
structure ScanState where
  xmlFile : Option ZipFile := none
  plistFile : Option ZipFile := none
  iosIconFile : Option ZipFile := none
  maxIosIconFile : Option ZipFile := none
  x : Int := 0
  y : Int := 0
  err : Option GoError := none

/-- One iteration of `for _, f := range reader.File { switch { ... } }`. -/
def scanStep (st : ScanState) (f : ZipFile) : ScanState :=
  if f.Name = "AndroidManifest.xml" then { st with xmlFile := some f }
  else if reInfoPlistMatchString f.Name then { st with plistFile := some f }
  else if Contains f.Name "AppIcon" then
    let st1 := { st with iosIconFile := some f }
    match FindStringSubmatch f.Name with
    | some cap =>
      let r := ParseInt cap
      let st2 := { st1 with y := r.1, err := r.2 }
      let st3 := if st2.err ≠ none then { st2 with x := 0 } else st2
      if st3.y > st3.x then { st3 with x := st3.y, maxIosIconFile := some f } else st3
    | none => st1
  else st

/-- The whole scan loop over `reader.File`, from the state at loop entry
(`err` is nil there: `zip.NewReader` succeeded). -/
def scan (files : List ZipFile) : ScanState := files.foldl scanStep {}

/-- The value of `iosIconFile` after
`if maxIosIconFile != nil { iosIconFile = maxIosIconFile }`. -/
def chosenIcon (st : ScanState) : Option ZipFile :=
  match st.maxIosIconFile with
  | some f => some f
  | none => st.iosIconFile

/-! ## The parsers -/

/-- The function `parseAndroidManifest` (on a non-nil entry). It returns either
`(nil, err)` or `(manifest, nil)`, which is the `Except` here. -/
def parseAndroidManifest (env : Env) (xmlFile : ZipFile) : Except GoError androidManifest :=
  match xmlFile.Open with
  | .error e => .error e
  | .ok rc =>
    match rc.readAll with
    | .error e => .error e
    | .ok buf =>
      match env.NewXMLFile buf with
      | .error e => .error e
      | .ok xmlContent =>
        match env.xmlDecode xmlContent with
        | .error e => .error e
        | .ok manifest => .ok manifest

/-- The function `parseApkFile`. -/
def parseApkFile (env : Env) (xmlFile : Option ZipFile) : Option AppInfo × Option GoError :=
  match xmlFile with
  | none => (none, some (GoError.new "AndroidManifest.xml not found"))
  | some f =>
    match parseAndroidManifest env f with
    | .error e => (none, some e)
    | .ok manifest =>
      (some { BundleID := manifest.Package, Version := manifest.VersionName,
              Build := manifest.VersionCode }, none)

/-- The function `parseApkIconAndLabel`. -/
def parseApkIconAndLabel (env : Env) (name : String) :
    Option Image × String × Option GoError :=
  match env.apkOpenFile name with
  | .error e => (none, "", some e)
  | .ok pkg =>
    let ar : ResTableConfig := { Density := 720 }
    match (pkg.Icon ar).1 with
    | none => (none, "", some ErrNoIcon)
    | some icon => (some icon, (pkg.Label ar).1, none)

/-- The function `parseIpaFile`. -/
def parseIpaFile (env : Env) (plistFile : Option ZipFile) : Option AppInfo × Option GoError :=
  match plistFile with
  | none => (none, some (GoError.new "info.plist not found"))
  | some f =>
    match f.Open with
    | .error e => (none, some e)
    | .ok rc =>
      match rc.readAll with
      | .error e => (none, some e)
      | .ok buf =>
        match env.plistDecode buf with
        | .error e => (none, some e)
        | .ok p =>
          (some { Name := if p.CFBundleDisplayName = "" then p.CFBundleName
                          else p.CFBundleDisplayName,
                  BundleID := p.CFBundleIDentifier,
                  Version := p.CFBundleShortVersion,
                  Build := p.CFBundleVersion }, none)

/-- The function `parseIpaIcon`. -/
def parseIpaIcon (env : Env) (iconFile : Option ZipFile) : Option Image × Option GoError :=
  match iconFile with
  | none => (none, some ErrNoIcon)
  | some f =>
    match f.Open with
    | .error e => (none, some e)
    | .ok rc => env.pngDecode (env.PngRevertOptimization rc)

/-! ## `NewAppParser` -/

/-- What a call of `NewAppParser` does: it returns `(info, err)`, or it panics on a
nil pointer dereference. -/
inductive Outcome where
  | ret (info : Option AppInfo) (err : Option GoError)
  | nilDeref
deriving DecidableEq, Repr

/-- The three ways `NewAppParser` goes on after the scan. -/
inductive Platform where
  | android
  | ios
  | unknown
deriving DecidableEq, Repr

/-- The dispatch `if ext == androidExt { ... }; if ext == iosExt { ... }; return ...`. -/
def platformOf (ext : String) : Platform :=
  if ext = androidExt then Platform.android
  else if ext = iosExt then Platform.ios
  else Platform.unknown

/-- The body of `if ext == androidExt { ... }`. The error of `parseApkFile` is
overwritten by the next assignment, and `info.Name = label` dereferences `info`. -/
def androidPath (env : Env) (name : String) (xmlFile : Option ZipFile) (stat : FileInfo) :
    Outcome :=
  let r := parseApkFile env xmlFile
  let il := parseApkIconAndLabel env name
  match r.1 with
  | none => Outcome.nilDeref
  | some info =>
    Outcome.ret (some { info with Name := il.2.1, Icon := il.1, Size := stat.Size }) il.2.2

/-- The body of `if ext == iosExt { ... }`. The error of `parseIpaFile` is
overwritten by the next assignment, and `info.Icon = icon` dereferences `info`. -/
def iosPath (env : Env) (plistFile iosIconFile : Option ZipFile) (stat : FileInfo) : Outcome :=
  let r := parseIpaFile env plistFile
  let ic := parseIpaIcon env iosIconFile
  match r.1 with
  | none => Outcome.nilDeref
  | some info => Outcome.ret (some { info with Icon := ic.1, Size := stat.Size }) ic.2

/-- The function `NewAppParser`. -/
def NewAppParser (env : Env) (name : String) : Outcome :=
  match env.osOpen name with
  | .error e => Outcome.ret none (some e)
  | .ok file =>
    match file.Stat with
    | .error e => Outcome.ret none (some e)
    | .ok stat =>
      match file.zipNewReader with
      | .error e => Outcome.ret none (some e)
      | .ok files =>
        let st := scan files
        match platformOf (Ext stat.Name) with
        | Platform.android => androidPath env name st.xmlFile stat
        | Platform.ios => iosPath env st.plistFile (chosenIcon st) stat
        | Platform.unknown => Outcome.ret none (some (GoError.new "unknown platform"))

/-! ## The standard library under `StoreURL.Cn`: `strings`, `path`, `net/url`

These functions work on the runes of a string. `net/url` follows the sources of Go 1.19
and later (the field `OmitHost`). It is embedded for raw URLs made of ASCII runes,
without user information, without a bracketed IP literal and with at most one colon in
the host, and without `%` in host, path and fragment; on any other input `Parse` answers
`none` (not covered), never a made-up result. -/

/-- The function `unicode.IsSpace`. -/
def isSpace (c : Char) : Bool :=
  let n := c.toNat
  n == 9 || n == 10 || n == 11 || n == 12 || n == 13 || n == 32 || n == 0x85 || n == 0xA0 ||
  n == 0x1680 || (0x2000 ≤ n && n ≤ 0x200a) || n == 0x2028 || n == 0x2029 || n == 0x202f ||
  n == 0x205f || n == 0x3000

/-- The function `strings.TrimSpace`. -/
def TrimSpace (s : List Char) : List Char :=
  ((s.dropWhile isSpace).reverse.dropWhile isSpace).reverse

/-- The function `strings.Split(s, "/")`. -/
def Split : List Char → List (List Char)
  | [] => [[]]
  | c :: cs =>
    if c == '/' then [] :: Split cs
    else
      match Split cs with
      | [] => [[c]]
      | w :: ws => (c :: w) :: ws

/-- The function `strings.Cut(s, sep)` for a one-rune separator: before, after, found. -/
def Cut (sep : Char) : List Char → List Char × List Char × Bool
  | [] => ([], [], false)
  | c :: cs =>
    if c == sep then ([], cs, true)
    else (c :: (Cut sep cs).1, (Cut sep cs).2.1, (Cut sep cs).2.2)

/-- The step `out.w--; for out.w > dotdot && out.index(out.w) != '/' { out.w-- }` of
`path.Clean`, on the written text in reverse (`out.w` is its length). -/
def backtrack (dotdot : Nat) : List Char → List Char
  | [] => []
  | c :: rest => if rest.length > dotdot && c != '/' then backtrack dotdot rest else rest

/-- The text is at the end of a path element: it is empty or starts with a slash. -/
def atElemEnd (s : List Char) : Bool :=
  match s with
  | [] => true
  | c :: _ => c == '/'

/-- The main loop of `path.Clean` over the unread text; `rout` is the written text in
reverse and `inElem` says that a real path element is being copied. -/
def cleanLoop (rooted : Bool) : Bool → List Char → List Char → Nat → List Char
  | _, [], rout, _ => rout
  | true, c :: rest, rout, dotdot =>
    if c == '/' then cleanLoop rooted false rest rout dotdot
    else cleanLoop rooted true rest (c :: rout) dotdot
  | false, c :: rest, rout, dotdot =>
    if c == '/' then cleanLoop rooted false rest rout dotdot
    else if c == '.' && atElemEnd rest then cleanLoop rooted false rest rout dotdot
    else
      let sep := if (rooted && rout.length != 1) || (!rooted && rout.length != 0)
                 then '/' :: rout else rout
      match rest with
      | [] => cleanLoop rooted true [] (c :: sep) dotdot
      | d :: rest2 =>
        if c == '.' && d == '.' && atElemEnd rest2 then
          if rout.length > dotdot then cleanLoop rooted false rest2 (backtrack dotdot rout) dotdot
          else if !rooted then
            cleanLoop rooted false rest2
              ('.' :: '.' :: (if rout.length > 0 then '/' :: rout else rout))
              (('.' :: '.' :: (if rout.length > 0 then '/' :: rout else rout)).length)
          else cleanLoop rooted false rest2 rout dotdot
        else cleanLoop rooted true (d :: rest2) (c :: sep) dotdot

/-- The function `path.Clean`. -/
def Clean (path : List Char) : List Char :=
  match path with
  | [] => ['.']
  | c :: rest =>
    let rout :=
      if c == '/' then cleanLoop true false rest ['/'] 1
      else cleanLoop false false (c :: rest) [] 0
    if rout.isEmpty then ['.'] else rout.reverse

/-- The loop of `path.Join` that fills `buf`. -/
def joinBuf : List (List Char) → List Char → List Char
  | [], buf => buf
  | e :: es, buf =>
    if buf.length > 0 || !e.isEmpty then
      joinBuf es ((if buf.length > 0 then buf ++ ['/'] else buf) ++ e)
    else joinBuf es buf

/-- The function `path.Join`. -/
def Join (elem : List (List Char)) : List Char :=
  if (elem.map List.length).sum == 0 then [] else Clean (joinBuf elem [])

/-- The escaping modes of `net/url` used on the way through `Parse` and `String`. -/
inductive encoding where
  | encodePath
  | encodeHost
  | encodeFragment
deriving DecidableEq, Repr

/-- The function `shouldEscape` of `net/url` on an ASCII rune. -/
def shouldEscape (c : Char) (mode : encoding) : Bool :=
  if c.isAlphanum then false
  else if mode == encoding.encodeHost &&
      ("!$&()*+,;=:[]<>".data.contains c || c == Char.ofNat 39 || c == Char.ofNat 34)
  then false
  else if c == '-' || c == '_' || c == '.' || c == '~' then false
  else if "$&+,/:;=?@".data.contains c then
    match mode with
    | encoding.encodePath => c == '?'
    | encoding.encodeFragment => false
    | encoding.encodeHost => true
  else if mode == encoding.encodeFragment && "!()*".data.contains c then false
  else true

/-- The table `upperhex`. -/
def upperhex (n : Nat) : Char := "0123456789ABCDEF".data.getD n '0'

/-- The three runes `%XY` that `escape` writes for one byte. -/
def escapeByte (b : Nat) : List Char := ['%', upperhex (b / 16), upperhex (b % 16)]

/-- The function `escape` of `net/url`: every byte that `shouldEscape` names is written
as `%XY` (all bytes of a rune outside ASCII are). -/
def escape (s : List Char) (mode : encoding) : List Char :=
  s.flatMap fun c =>
    if c.toNat < 128 then (if shouldEscape c mode then escapeByte c.toNat else [c])
    else (String.utf8EncodeChar c).flatMap fun b => escapeByte b.toNat

/-- The function `validEncoded` of `net/url`. -/
def validEncoded (s : List Char) (mode : encoding) : Bool :=
  s.all fun c =>
    "!$&()*+,;=:@[]%".data.contains c || c == Char.ofNat 39 || !shouldEscape c mode

/-- The struct `url.URL`, without `User` (no user information in the covered URLs). -/
structure URL where
  Scheme : List Char := []
  Opaque : List Char := []
  Host : List Char := []
  Path : List Char := []
  RawPath : List Char := []
  OmitHost : Bool := false
  ForceQuery : Bool := false
  RawQuery : List Char := []
  Fragment : List Char := []
  RawFragment : List Char := []
deriving DecidableEq, Repr

/-- The scan of `getScheme` after the first rune: the rest of the scheme up to the
colon and the text after it, or `none` when a rune that cannot be in a scheme (or the
end of the text) comes first. -/
def schemeTail : List Char → Option (List Char × List Char)
  | [] => none
  | c :: cs =>
    if c == ':' then some ([], cs)
    else if c.isAlpha || c.isDigit || c == '+' || c == '-' || c == '.' then
      match schemeTail cs with
      | some r => some (c :: r.1, r.2)
      | none => none
    else none

/-- The function `getScheme` of `net/url`: `(scheme, rest)` or an error. -/
def getScheme (rawURL : List Char) : Except GoError (List Char × List Char) :=
  match rawURL with
  | [] => .ok ([], rawURL)
  | c :: cs =>
    if c.isAlpha then
      match schemeTail cs with
      | some r => .ok (c :: r.1, r.2)
      | none => .ok ([], rawURL)
    else if c.isDigit || c == '+' || c == '-' || c == '.' then .ok ([], rawURL)
    else if c == ':' then .error (GoError.lib "missing protocol scheme")
    else .ok ([], rawURL)

/-- The function `validOptionalPort` of `net/url`. -/
def validOptionalPort (port : List Char) : Bool :=
  match port with
  | [] => true
  | c :: rest => c == ':' && rest.all fun b => '0' ≤ b && b ≤ '9'

/-- The text `host[i:]` for `i = strings.LastIndex(host, ":")`, when there is a colon. -/
def fromLastColon : List Char → Option (List Char)
  | [] => none
  | c :: cs =>
    match fromLastColon cs with
    | some t => some t
    | none => if c == ':' then some (c :: cs) else none

/-- The function `parseHost` of `net/url`; `none` for a bracketed IP literal, a `%` or
more than one colon (not covered). Without `%`, `unescape(host, encodeHost)` fails on a
rune that `shouldEscape` names and is the identity otherwise. -/
def parseHost (host : List Char) : Option (Except GoError (List Char)) :=
  if host.head? == some '[' || host.contains '%' || host.count ':' > 1 then none
  else if (match fromLastColon host with
           | some colonPort => !validOptionalPort colonPort
           | none => false) then
    some (.error (GoError.lib "invalid port after host"))
  else if host.any fun c => shouldEscape c encoding.encodeHost then
    some (.error (GoError.lib "invalid character in host name"))
  else some (.ok host)

/-- The function `parseAuthority` of `net/url`; `none` when user information is present
(not covered). -/
def parseAuthority (authority : List Char) : Option (Except GoError (List Char)) :=
  if authority.contains '@' then none else parseHost authority

/-- The method `(*URL).setPath`; `none` for a `%` in the path (not covered). Without
`%`, `unescape(p, encodePath)` is the identity. -/
def URL.setPath (u : URL) (p : List Char) : Option URL :=
  if p.contains '%' then none
  else some { u with Path := p,
                     RawPath := if p == escape p encoding.encodePath then [] else p }

/-- The method `(*URL).setFragment`; `none` for a `%` in the fragment (not covered). -/
def URL.setFragment (u : URL) (f : List Char) : Option URL :=
  if f.contains '%' then none
  else some { u with Fragment := f,
                     RawFragment := if f == escape f encoding.encodeFragment then [] else f }

/-- The function `parse(rawURL, false)` of `net/url`. -/
def parseNoFragment (rawURL : List Char) : Option (Except GoError URL) :=
  if rawURL.any (fun c => c.toNat < 32 || c.toNat == 127) then
    some (.error (GoError.lib "net/url: invalid control character in URL"))
  else if rawURL == ['*'] then some (.ok { Path := ['*'] })
  else
    match getScheme rawURL with
    | .error e => some (.error e)
    | .ok (scheme0, rest0) =>
      let scheme := scheme0.map Char.toLower
      let force := rest0.getLast? == some '?' && rest0.count '?' == 1
      let rest := if force then rest0.dropLast else (Cut '?' rest0).1
      let rawQuery := if force then [] else (Cut '?' rest0).2.1
      let url : URL := { Scheme := scheme, ForceQuery := force, RawQuery := rawQuery }
      if rest.head? != some '/' && !scheme.isEmpty then some (.ok { url with Opaque := rest })
      else if rest.head? != some '/' && (Cut '/' rest).1.contains ':' then
        some (.error (GoError.lib "first path segment in URL cannot contain colon"))
      else if (!scheme.isEmpty || !hasLit "///".data rest) && hasLit "//".data rest then
        let authority := (Cut '/' (rest.drop 2)).1
        let rest2 := if (Cut '/' (rest.drop 2)).2.2 then '/' :: (Cut '/' (rest.drop 2)).2.1
                     else []
        match parseAuthority authority with
        | none => none
        | some (.error e) => some (.error e)
        | some (.ok host) =>
          match URL.setPath { url with Host := host } rest2 with
          | none => none
          | some u => some (.ok u)
      else
        match URL.setPath { url with OmitHost := !scheme.isEmpty && rest.head? == some '/' }
            rest with
        | none => none
        | some u => some (.ok u)

/-- The function `url.Parse`: `some (.ok u)` or `some (.error e)` as Go returns, and
`none` when the raw URL is not covered (a rune outside ASCII, or one of the cases named
at `parseHost`, `parseAuthority`, `setPath`, `setFragment`). -/
def Parse (rawURL : List Char) : Option (Except GoError URL) :=
  if rawURL.any (fun c => c.toNat ≥ 128) then none
  else
    match parseNoFragment (Cut '#' rawURL).1 with
    | none => none
    | some (.error e) => some (.error e)
    | some (.ok url) =>
      if (Cut '#' rawURL).2.1.isEmpty then some (.ok url)
      else
        match URL.setFragment url (Cut '#' rawURL).2.1 with
        | none => none
        | some u => some (.ok u)

/-- The method `(*URL).EscapedPath`. `RawPath` holds no `%` (see `setPath`), so
`unescape(u.RawPath, encodePath)` is `u.RawPath`. -/
def URL.EscapedPath (u : URL) : List Char :=
  if !u.RawPath.isEmpty && validEncoded u.RawPath encoding.encodePath && u.RawPath == u.Path
  then u.RawPath
  else if u.Path == ['*'] then ['*']
  else escape u.Path encoding.encodePath

/-- The method `(*URL).EscapedFragment`. -/
def URL.EscapedFragment (u : URL) : List Char :=
  if !u.RawFragment.isEmpty && validEncoded u.RawFragment encoding.encodeFragment &&
      u.RawFragment == u.Fragment
  then u.RawFragment
  else escape u.Fragment encoding.encodeFragment

/-- The method `(*URL).String` (with `u.User == nil`). -/
def URL.String (u : URL) : List Char :=
  let b1 := if !u.Scheme.isEmpty then u.Scheme ++ [':'] else []
  let b2 :=
    if !u.Opaque.isEmpty then b1 ++ u.Opaque
    else
      let b3 :=
        if !u.Scheme.isEmpty || !u.Host.isEmpty then
          if u.OmitHost && u.Host.isEmpty then b1
          else
            (if !u.Host.isEmpty || !u.Path.isEmpty then b1 ++ ['/', '/'] else b1) ++
              (if !u.Host.isEmpty then escape u.Host encoding.encodeHost else [])
        else b1
      let path := u.EscapedPath
      let b4 := if !path.isEmpty && path.head? != some '/' && !u.Host.isEmpty
                then b3 ++ ['/'] else b3
      let b5 := if b4.isEmpty && (Cut '/' path).1.contains ':' then b4 ++ ['.', '/'] else b4
      b5 ++ path
  let b6 := if u.ForceQuery || !u.RawQuery.isEmpty then b2 ++ ['?'] ++ u.RawQuery else b2
  if !u.Fragment.isEmpty then b6 ++ ['#'] ++ u.EscapedFragment else b6

/-! ## `StoreURL` -/

/-- The type `StoreURL`. -/
abbrev StoreURL := String

/-- The body of `(*StoreURL).Cn` on the runes of `s`. -/
def cnRunes (s : List Char) : Option (List Char) :=
  match Parse s with
  | none => none
  | some (.error _) => some s
  | some (.ok u) =>
    let p := Split (TrimSpace u.Path)
    let p := if p.length > 2 then ['c', 'n'] :: p.drop 2 else p
    some (URL.String { u with Path := Join p })

/-- The method `(*StoreURL).Cn`; `none` when `url.Parse` is not covered on `s`. -/
def StoreURL.Cn (s : StoreURL) : Option String := (cnRunes s.data).map String.mk

/-! ## Vocabulary of the claims about `Cn` -/

/-- A rune of a scheme after its first rune: a letter, a digit, `+`, `-` or `.`. -/
def schemeRune (c : Char) : Bool := c.isAlpha || c.isDigit || c == '+' || c == '-' || c == '.'

/-- A rune of a host name: a letter, a digit, `-` or `.`. -/
def hostRune (c : Char) : Bool := c.isAlphanum || c == '-' || c == '.'

/-- A rune of a path segment that needs no escaping: a letter, a digit or one of
`- _ . ~ $ & + , : ; = @`. -/
def segmentRune (c : Char) : Bool := c.isAlphanum || "-_.~$&+,:;=@".data.contains c

/-- A rune of a query: printable ASCII other than `#`. -/
def queryRune (c : Char) : Bool := 32 ≤ c.toNat && c.toNat < 127 && c != '#'

/-- A scheme: a letter, then letters, digits, `+`, `-`, `.`. -/
def isScheme (s : List Char) : Bool :=
  match s with
  | [] => false
  | c :: cs => c.isAlpha && cs.all schemeRune

/-- The scheme in lower case (`strings.ToLower`). -/
def lowerScheme (s : List Char) : List Char := s.map Char.toLower

/-- A non-empty host name. -/
def isHost (h : List Char) : Bool := !h.isEmpty && h.all hostRune

/-- A path segment: non-empty, not `.` or `..`, no rune that needs escaping. -/
def isSegment (s : List Char) : Bool :=
  !s.isEmpty && s != ['.'] && s != ['.', '.'] && s.all segmentRune

/-- A query without fragment. -/
def isQuery (q : List Char) : Bool := q.all queryRune

/-- An optional query without fragment. -/
def isQueryOpt : Option (List Char) → Bool
  | none => true
  | some q => isQuery q

/-- The segments, each after a slash: `/s1/.../sn`. -/
def slashed : List (List Char) → List Char
  | [] => []
  | s :: rest => '/' :: (s ++ slashed rest)

/-- The text of an optional query: nothing, or `?<query>`. -/
def queryPart : Option (List Char) → List Char
  | none => []
  | some q => '?' :: q

/-- The URL `scheme://host/<s0>/.../<sn>` with or without `?<query>`. -/
def urlOf (scheme host : List Char) (segs : List (List Char)) (query : Option (List Char)) :
    List Char :=
  scheme ++ ':' :: '/' :: '/' :: (host ++ (slashed segs ++ queryPart query))

/-- The store URL `scheme://host/<region>/<s1>/.../<sn>?<query>`. -/
def storeURL (scheme host region : List Char) (segs : List (List Char)) (query : List Char) :
    List Char :=
  scheme ++ ':' :: '/' :: '/' :: (host ++ '/' :: (region ++ (slashed segs ++ '?' :: query)))

/-- The store URL `scheme://host/cn/<s1>/.../<sn>?<query>`. -/
def cnURL (scheme host : List Char) (segs : List (List Char)) (query : List Char) : List Char :=
  scheme ++ ':' :: '/' :: '/' :: (host ++ '/' :: 'c' :: 'n' :: (slashed segs ++ '?' :: query))

/-! ## Vocabulary of the claims about the scan -/

/-- The entry reaches the third case of the switch (the icon case): its name is not
`AndroidManifest.xml`, does not match `reInfoPlist`, and contains `AppIcon`. -/
def iconCase (f : ZipFile) : Bool :=
  f.Name != "AndroidManifest.xml" && !reInfoPlistMatchString f.Name && Contains f.Name "AppIcon"

/-- The resolution score the scan reads off an entry: the value `ParseInt` gives for
the group captured by `prexRegexp`, for an entry of the icon case. -/
def score (f : ZipFile) : Option Int :=
  if iconCase f then (FindStringSubmatch f.Name).map (fun cap => (ParseInt cap).1) else none

/-- The text starts with `AppIcon-` and three digits. -/
def suffixAt (s : List Char) : Bool :=
  match dropLit "AppIcon-".data s with
  | some (d1 :: d2 :: d3 :: _) => isDigit d1 && isDigit d2 && isDigit d3
  | _ => false

/-- Somewhere in the text stands `AppIcon-` followed by three digits. -/
def carriesSuffixRunes : List Char → Bool
  | [] => false
  | c :: rest => suffixAt (c :: rest) || carriesSuffixRunes rest

/-- The name carries an `AppIcon-<3 digits>` resolution suffix. -/
def carriesSuffix (name : String) : Bool := carriesSuffixRunes name.data

/-- An archive entry with the given name and content. -/
def entry (name : String) (content : Bytes) : ZipFile :=
  { Name := name, Open := .ok { readAll := .ok content } }

/-- Three ASCII digits. -/
def threeDigits (cap : List Char) : Prop :=
  ∃ d1 d2 d3, cap = [d1, d2, d3] ∧ isDigit d1 = true ∧ isDigit d2 = true ∧ isDigit d3 = true

/-! ## Concrete packages for the examples -/

/-- The manifest that `parser_test.go` expects of `testdata/helloworld.apk`. -/
def helloManifest : androidManifest :=
  { Package := "com.example.helloworld", VersionName := "1.0", VersionCode := "1" }

/-- A property list with the identifier and the versions that `parser_test.go` expects
of `testdata/helloworld.ipa`, and without a display name. -/
def helloPlist : iosPlist :=
  { CFBundleName := "helloworld", CFBundleDisplayName := "", CFBundleVersion := "1.0",
    CFBundleShortVersion := "1.0", CFBundleIDentifier := "com.kthcorp.helloworld" }

/-- A property list that is an empty dictionary: every field decodes to `""`. -/
def emptyPlist : iosPlist := {}

/-- A package file on disk: `os.Open` gives a file whose `Stat` reports `statName` and
`size` and whose archive holds `files`; `apk.OpenFile` gives `pkg`; the manifest
decodes to `helloManifest` and the property list to `plist`; no icon decodes as PNG. -/
def world (statName : String) (size : Int) (files : List ZipFile) (pkg : Except GoError Apk)
    (plist : iosPlist) : Env :=
  { osOpen := fun _ => .ok { Stat := .ok { Name := statName, Size := size },
                             zipNewReader := .ok files },
    apkOpenFile := fun _ => pkg,
    NewXMLFile := fun b => .ok b,
    xmlDecode := fun _ => .ok helloManifest,
    plistDecode := fun _ => .ok plist,
    PngRevertOptimization := fun _ => [],
    pngDecode := fun _ => (none, some (GoError.lib "png: invalid format")) }

/-- An opened package whose resource table has no icon for any configuration and
resolves the label `HelloWorld`. -/
def labelOnlyApk : Apk :=
  { Icon := fun _ => (none, some (GoError.lib "resource not found")),
    Label := fun _ => ("HelloWorld", none) }

/-- An archive without manifest and without property list: a single other entry. -/
def bareArchive : List ZipFile := [entry "classes.dex" [100, 101, 120]]

/-- Three icon entries under the application directory, scores 60, 120 and 180. -/
def icon060 : ZipFile := entry "Payload/A.app/AppIcon-060.png" []

/-- The icon entry with score 120. -/
def icon120 : ZipFile := entry "Payload/A.app/AppIcon-120.png" []

/-- The icon entry with score 180. -/
def icon180 : ZipFile := entry "Payload/A.app/AppIcon-180.png" []

/-- An `.ipa` archive with a property list and no icon entry. -/
def plainIpa : List ZipFile :=
  [entry "Payload/A.app/Info.plist" [98, 112], entry "Payload/A.app/A" [0]]

/-- An `.apk` archive with a manifest. -/
def plainApk : List ZipFile :=
  [entry "AndroidManifest.xml" [3, 0, 8, 0], entry "classes.dex" [100, 101, 120]]

/-- An archive with two icon entries without a three-digit suffix. -/
def unscoredIcons : List ZipFile :=
  [entry "Payload/A.app/AppIcon60x60@2x.png" [], entry "Payload/A.app/Info.plist" [98, 112],
   entry "Payload/A.app/AppIcon76x76@2x~ipad.png" []]

/-- An entry named like a property list that `Open` cannot read (its compression method
is not supported). -/
def unreadablePlist : ZipFile :=
  { Name := "Payload/B.app/Info.plist",
    Open := .error (GoError.lib "zip: unsupported compression algorithm") }

/-- An `.ipa` archive with a decodable property list, followed by a second entry
matching `reInfoPlist` that cannot be read, and no icon entry. -/
def twoPlistIpa : List ZipFile :=
  [entry "Payload/A.app/Info.plist" [98, 112], entry "Payload/A.app/A" [0], unreadablePlist]

/-! ## The capture of `prexRegexp` is three digits -/

theorem iconTail_digits {s cap : List Char} (h : iconTail s = some cap) : threeDigits cap := by
  unfold iconTail at h
  split at h
  · split at h
    · rename_i hc
      simp only [Bool.and_eq_true] at hc
      cases h
      exact ⟨_, _, _, rfl, hc.1.1.1, hc.1.1.2, hc.1.2⟩
    · cases h
  · cases h

theorem iconGreedy_digits : ∀ {s cap : List Char}, iconGreedy s = some cap → threeDigits cap
  | [], _, h => by simp [iconGreedy] at h
  | c :: rest, cap, h => by
    unfold iconGreedy at h
    split at h
    · rename_i cap1 h1
      cases h
      split at h1
      · exact iconGreedy_digits h1
      · cases h1
    · exact iconTail_digits h

theorem iconMatchAt_digits {s cap : List Char} (h : iconMatchAt s = some cap) :
    threeDigits cap := by
  cases s with
  | nil => simp [iconMatchAt] at h
  | cons c rest =>
    by_cases hd : dotMatches c = true
    · simp only [iconMatchAt, hd, if_true] at h
      exact iconGreedy_digits h
    · simp [iconMatchAt, hd] at h

theorem iconSearch_digits : ∀ {s cap : List Char}, iconSearch s = some cap → threeDigits cap
  | [], _, h => by simp [iconSearch] at h
  | c :: rest, cap, h => by
    unfold iconSearch at h
    split at h
    · rename_i cap1 h1
      cases h
      exact iconMatchAt_digits h1
    · exact iconSearch_digits h

theorem digit_bounds {c : Char} (h : isDigit c = true) : 48 ≤ c.toNat ∧ c.toNat ≤ 57 := by
  simp only [isDigit, Char.isDigit, Bool.and_eq_true, decide_eq_true_eq] at h
  exact ⟨h.1, h.2⟩

theorem digit_ne_plus {c : Char} (h : isDigit c = true) : (c == '+') = false := by
  have hb := digit_bounds h
  cases hc : c == '+'
  · rfl
  · have : c = '+' := by simpa using hc
    subst this
    exact absurd hb.1 (by decide)

theorem digit_ne_minus {c : Char} (h : isDigit c = true) : (c == '-') = false := by
  have hb := digit_bounds h
  cases hc : c == '-'
  · rfl
  · have : c = '-' := by simpa using hc
    subst this
    exact absurd hb.1 (by decide)

/-- On three digits `ParseInt` raises no error and gives a value from 0 to 999. -/
theorem ParseInt_threeDigits {cap : List Char} (h : threeDigits cap) :
    ∃ v : Int, ParseInt (String.mk cap) = (v, none) ∧ 0 ≤ v ∧ v ≤ 999 := by
  obtain ⟨d1, d2, d3, rfl, h1, h2, h3⟩ := h
  have b1 := digit_bounds h1
  have b2 := digit_bounds h2
  have b3 := digit_bounds h3
  refine ⟨(((0 * 10 + (d1.toNat - 48)) * 10 + (d2.toNat - 48)) * 10 + (d3.toNat - 48) : Nat),
    ?_, ?_, ?_⟩
  · simp only [ParseInt, digit_ne_plus h1, digit_ne_minus h1, ParseUint, parseUintLoop, h1, h2, h3,
      maxUint64, parseIntSigned]
    norm_num
    have e1 : ¬ (1844674407370955162 ≤ d1.toNat - 48) := by omega
    have e2 : ¬ (18446744073709551615 < d1.toNat - 48) := by omega
    have e3 : ¬ (1844674407370955162 ≤ (d1.toNat - 48) * 10 + (d2.toNat - 48)) := by omega
    have e4 : ¬ (18446744073709551615 < (d1.toNat - 48) * 10 + (d2.toNat - 48)) := by omega
    have e5 : ¬ (1844674407370955162 ≤
      ((d1.toNat - 48) * 10 + (d2.toNat - 48)) * 10 + (d3.toNat - 48)) := by omega
    have e6 : ¬ (18446744073709551615 <
      ((d1.toNat - 48) * 10 + (d2.toNat - 48)) * 10 + (d3.toNat - 48)) := by omega
    simp [e1, e2, e3, e4, e5, e6]
    omega
  · exact Int.natCast_nonneg _
  · have : ((0 * 10 + (d1.toNat - 48)) * 10 + (d2.toNat - 48)) * 10 + (d3.toNat - 48) ≤ 999 := by
      omega
    exact_mod_cast this

/-! ## One step of the scan -/

theorem iconCase_iff (f : ZipFile) :
    iconCase f = true ↔ f.Name ≠ "AndroidManifest.xml" ∧ reInfoPlistMatchString f.Name = false ∧
      Contains f.Name "AppIcon" = true := by
  simp [iconCase, and_assoc]

theorem scanStep_notIcon (st : ScanState) {f : ZipFile} (h : iconCase f = false) :
    (scanStep st f).iosIconFile = st.iosIconFile ∧
    (scanStep st f).maxIosIconFile = st.maxIosIconFile ∧
    (scanStep st f).x = st.x ∧ (scanStep st f).err = st.err := by
  unfold scanStep
  by_cases h1 : f.Name = "AndroidManifest.xml"
  · simp [h1]
  · by_cases h2 : reInfoPlistMatchString f.Name = true
    · simp [h1, h2]
    · have h3 : Contains f.Name "AppIcon" = false := by
        cases hc : Contains f.Name "AppIcon"
        · rfl
        · have := (iconCase_iff f).2 ⟨h1, by simpa using h2, hc⟩
          rw [h] at this
          cases this
      simp [h1, h2, h3]

theorem scanStep_unscored (st : ScanState) {f : ZipFile} (h : iconCase f = true)
    (hs : FindStringSubmatch f.Name = none) :
    (scanStep st f).iosIconFile = some f ∧
    (scanStep st f).maxIosIconFile = st.maxIosIconFile ∧
    (scanStep st f).x = st.x ∧ (scanStep st f).err = st.err := by
  obtain ⟨h1, h2, h3⟩ := (iconCase_iff f).1 h
  unfold scanStep
  simp [h1, h2, h3, hs]

theorem score_some {f : ZipFile} {v : Int} (hs : score f = some v) :
    iconCase f = true ∧ ∃ cap, FindStringSubmatch f.Name = some cap ∧ ParseInt cap = (v, none) ∧
      0 ≤ v := by
  unfold score at hs
  by_cases h : iconCase f = true
  · refine ⟨h, ?_⟩
    simp only [h, if_true] at hs
    cases hf : FindStringSubmatch f.Name with
    | none => simp [hf] at hs
    | some cap =>
      simp only [hf, Option.map_some'] at hs
      refine ⟨cap, rfl, ?_⟩
      unfold FindStringSubmatch at hf
      cases hi : iconSearch f.Name.data with
      | none => simp [hi] at hf
      | some c =>
        simp only [hi, Option.map_some'] at hf
        obtain ⟨w, hw, hw0, _⟩ := ParseInt_threeDigits (iconSearch_digits hi)
        have hcap : cap = String.mk c := by
          cases hf
          rfl
        subst hcap
        rw [hw] at hs
        cases hs
        exact ⟨hw, hw0⟩
  · simp [h] at hs

theorem scanStep_scored (st : ScanState) {f : ZipFile} {v : Int} (hs : score f = some v) :
    (scanStep st f).iosIconFile = some f ∧ (scanStep st f).err = none ∧
    (st.x < v → (scanStep st f).x = v ∧ (scanStep st f).maxIosIconFile = some f) ∧
    (¬ st.x < v → (scanStep st f).x = st.x ∧
      (scanStep st f).maxIosIconFile = st.maxIosIconFile) := by
  obtain ⟨h, cap, hf, hp, _⟩ := score_some hs
  obtain ⟨h1, h2, h3⟩ := (iconCase_iff f).1 h
  unfold scanStep
  by_cases hx : st.x < v
  · simp [h1, h2, h3, hf, hp, hx]
  · simp [h1, h2, h3, hf, hp, hx]

/-! ## Invariants of the scan loop -/

theorem scan_snoc (l : List ZipFile) (a : ZipFile) : scan (l ++ [a]) = scanStep (scan l) a := by
  simp [scan, List.foldl_append]

theorem score_none_or_some (f : ZipFile) :
    (iconCase f = false) ∨ (iconCase f = true ∧ FindStringSubmatch f.Name = none) ∨
      ∃ v, score f = some v := by
  cases h : iconCase f
  · exact Or.inl rfl
  · right
    cases hf : FindStringSubmatch f.Name with
    | none => exact Or.inl ⟨rfl, rfl⟩
    | some cap => exact Or.inr ⟨(ParseInt cap).1, by simp [score, h, hf]⟩

/-- After the loop `iosIconFile` is the last entry of the icon case, if there is one. -/
theorem scan_iosIconFile (l : List ZipFile) :
    ((∀ e ∈ l, iconCase e = false) ∧ (scan l).iosIconFile = none) ∨
    ∃ pre g post, l = pre ++ g :: post ∧ iconCase g = true ∧
      (∀ e ∈ post, iconCase e = false) ∧ (scan l).iosIconFile = some g := by
  induction l using List.reverseRecOn with
  | nil => exact Or.inl ⟨by simp, rfl⟩
  | append_singleton l a ih =>
    rw [scan_snoc]
    rcases score_none_or_some a with ha | ⟨ha, hf⟩ | ⟨v, hv⟩
    · have hstep := (scanStep_notIcon (scan l) ha).1
      rcases ih with ⟨hall, hnone⟩ | ⟨pre, g, post, hl, hg, hpost, hsome⟩
      · left
        refine ⟨?_, by rw [hstep, hnone]⟩
        intro e he
        rcases List.mem_append.1 he with he | he
        · exact hall e he
        · rw [List.mem_singleton.1 he]; exact ha
      · right
        refine ⟨pre, g, post ++ [a], by simp [hl], hg, ?_, by rw [hstep, hsome]⟩
        intro e he
        rcases List.mem_append.1 he with he | he
        · exact hpost e he
        · rw [List.mem_singleton.1 he]; exact ha
    · right
      exact ⟨l, a, [], rfl, ha, by simp, (scanStep_unscored (scan l) ha hf).1⟩
    · right
      exact ⟨l, a, [], rfl, (score_some hv).1, by simp, (scanStep_scored (scan l) hv).1⟩

/-- When no entry has a score, the loop raises no error and `maxIosIconFile` stays nil. -/
theorem scan_unscored (l : List ZipFile) (h : ∀ e ∈ l, score e = none) :
    (scan l).maxIosIconFile = none ∧ (scan l).err = none := by
  induction l using List.reverseRecOn with
  | nil => exact ⟨rfl, rfl⟩
  | append_singleton l a ih =>
    have ih1 := ih (fun e he => h e (List.mem_append.2 (Or.inl he)))
    rw [scan_snoc]
    rcases score_none_or_some a with ha | ⟨ha, hf⟩ | ⟨v, hv⟩
    · have hstep := scanStep_notIcon (scan l) ha
      exact ⟨by rw [hstep.2.1, ih1.1], by rw [hstep.2.2.2, ih1.2]⟩
    · have hstep := scanStep_unscored (scan l) ha hf
      exact ⟨by rw [hstep.2.1, ih1.1], by rw [hstep.2.2.2, ih1.2]⟩
    · have := h a (List.mem_append.2 (Or.inr (List.mem_singleton.2 rfl)))
      rw [hv] at this
      cases this

/-- The running maximum: `x` bounds every score seen, and `maxIosIconFile` is the first
entry that reached `x`. -/
theorem scan_max (l : List ZipFile) :
    (scan l).err = none ∧ 0 ≤ (scan l).x ∧ (∀ e ∈ l, ∀ s, score e = some s → s ≤ (scan l).x) ∧
    (((scan l).maxIosIconFile = none ∧ (scan l).x = 0) ∨
      ∃ pre g post, l = pre ++ g :: post ∧ (scan l).maxIosIconFile = some g ∧
        score g = some (scan l).x ∧ 0 < (scan l).x ∧
        ∀ e ∈ pre, ∀ s, score e = some s → s < (scan l).x) := by
  induction l using List.reverseRecOn with
  | nil => exact ⟨rfl, le_refl _, by simp, Or.inl ⟨rfl, rfl⟩⟩
  | append_singleton l a ih =>
    obtain ⟨ierr, inn, ibound, imax⟩ := ih
    rw [scan_snoc]
    have keep : ∀ (hx : (scanStep (scan l) a).x = (scan l).x)
        (hm : (scanStep (scan l) a).maxIosIconFile = (scan l).maxIosIconFile)
        (_ : ∀ s, score a = some s → s ≤ (scan l).x),
        (0 ≤ (scanStep (scan l) a).x ∧
        (∀ e ∈ l ++ [a], ∀ s, score e = some s → s ≤ (scanStep (scan l) a).x) ∧
        (((scanStep (scan l) a).maxIosIconFile = none ∧ (scanStep (scan l) a).x = 0) ∨
          ∃ pre g post, l ++ [a] = pre ++ g :: post ∧
            (scanStep (scan l) a).maxIosIconFile = some g ∧
            score g = some (scanStep (scan l) a).x ∧ 0 < (scanStep (scan l) a).x ∧
            ∀ e ∈ pre, ∀ s, score e = some s → s < (scanStep (scan l) a).x)) := by
      intro hx hm ha
      rw [hx, hm]
      refine ⟨inn, ?_, ?_⟩
      · intro e he s hs
        rcases List.mem_append.1 he with he | he
        · exact ibound e he s hs
        · rw [List.mem_singleton.1 he] at hs; exact ha s hs
      · rcases imax with hnone | ⟨pre, g, post, hl, hg, hsc, hpos, hpre⟩
        · exact Or.inl hnone
        · exact Or.inr ⟨pre, g, post ++ [a], by simp [hl], hg, hsc, hpos, hpre⟩
    rcases score_none_or_some a with ha | ⟨ha, hf⟩ | ⟨v, hv⟩
    · have hstep := scanStep_notIcon (scan l) ha
      refine ⟨by rw [hstep.2.2.2, ierr], keep hstep.2.2.1 hstep.2.1 ?_⟩
      intro s hs
      simp [score, ha] at hs
    · have hstep := scanStep_unscored (scan l) ha hf
      refine ⟨by rw [hstep.2.2.2, ierr], keep hstep.2.2.1 hstep.2.1 ?_⟩
      intro s hs
      simp [score, ha, hf] at hs
    · have hstep := scanStep_scored (scan l) hv
      refine ⟨hstep.2.1, ?_⟩
      by_cases hx : (scan l).x < v
      · obtain ⟨hxv, hmv⟩ := hstep.2.2.1 hx
        rw [hxv, hmv]
        refine ⟨le_trans inn (le_of_lt hx), ?_, ?_⟩
        · intro e he s hs
          rcases List.mem_append.1 he with he | he
          · exact le_trans (ibound e he s hs) (le_of_lt hx)
          · rw [List.mem_singleton.1 he, hv] at hs
            cases hs
            exact le_refl _
        · right
          refine ⟨l, a, [], rfl, rfl, hv, lt_of_le_of_lt inn hx, ?_⟩
          intro e he s hs
          exact lt_of_le_of_lt (ibound e he s hs) hx
      · obtain ⟨hxv, hmv⟩ := hstep.2.2.2 hx
        refine keep hxv hmv ?_
        intro s hs
        rw [hv] at hs
        cases hs
        exact not_lt.1 hx

/-! ## A name matched by `prexRegexp` carries the suffix -/

theorem iconTail_suffixAt {s cap : List Char} (h : iconTail s = some cap) : suffixAt s = true := by
  unfold iconTail at h
  unfold suffixAt
  split at h
  · rename_i d1 d2 d3 c rest hd
    rw [hd]
    split at h
    · rename_i hc
      simp only [Bool.and_eq_true] at hc
      simp [hc.1.1.1, hc.1.1.2, hc.1.2]
    · cases h
  · cases h

theorem iconGreedy_carries : ∀ {s cap : List Char}, iconGreedy s = some cap →
    carriesSuffixRunes s = true
  | [], _, h => by simp [iconGreedy] at h
  | c :: rest, cap, h => by
    unfold iconGreedy at h
    unfold carriesSuffixRunes
    split at h
    · rename_i cap1 h1
      split at h1
      · simp [iconGreedy_carries h1]
      · cases h1
    · simp [iconTail_suffixAt h]

theorem iconSearch_carries : ∀ {s cap : List Char}, iconSearch s = some cap →
    carriesSuffixRunes s = true
  | [], _, h => by simp [iconSearch] at h
  | c :: rest, cap, h => by
    unfold iconSearch at h
    unfold carriesSuffixRunes
    split at h
    · rename_i cap1 h1
      by_cases hd : dotMatches c = true
      · simp only [iconMatchAt, hd, if_true] at h1
        simp [iconGreedy_carries h1]
      · simp [iconMatchAt, hd] at h1
    · simp [iconSearch_carries h]

theorem score_none_of_not_carries {f : ZipFile} (h : carriesSuffix f.Name = false) :
    score f = none := by
  rcases score_none_or_some f with ha | ⟨ha, hf⟩ | ⟨v, hv⟩
  · simp [score, ha]
  · simp [score, ha, hf]
  · obtain ⟨_, cap, hf, _⟩ := score_some hv
    unfold FindStringSubmatch at hf
    cases hi : iconSearch f.Name.data with
    | none => simp [hi] at hf
    | some c =>
      have := iconSearch_carries hi
      unfold carriesSuffix at h
      rw [h] at this
      cases this

/-! ## C3 and C4 -/

/-- C3 (amended): when some entry of the icon case has a positive score under the
pattern of the code, there is a largest score `m` among the entries, and for every
reordering of the list the scan chooses the first entry in scan order whose score is `m`. -/
theorem icon_scan_first_largest_score (files : List ZipFile)
    (h : ∃ e ∈ files, ∃ s, score e = some s ∧ 0 < s) :
    ∃ m, (∀ e ∈ files, ∀ s, score e = some s → s ≤ m) ∧
      ∀ files', files'.Perm files →
        ∃ pre g post, files' = pre ++ g :: post ∧ chosenIcon (scan files') = some g ∧
          score g = some m ∧ ∀ e ∈ pre, score e ≠ some m := by
  have key : ∀ l : List ZipFile, (∃ e ∈ l, ∃ s, score e = some s ∧ 0 < s) →
      ∃ pre g post, l = pre ++ g :: post ∧ chosenIcon (scan l) = some g ∧
        score g = some (scan l).x ∧ (∀ e ∈ l, ∀ s, score e = some s → s ≤ (scan l).x) ∧
        ∀ e ∈ pre, score e ≠ some (scan l).x := by
    intro l hl
    obtain ⟨_, _, hbound, hmax⟩ := scan_max l
    obtain ⟨e, he, s, hs, hpos⟩ := hl
    rcases hmax with ⟨_, hx0⟩ | ⟨pre, g, post, hdec, hg, hsc, _, hpre⟩
    · have := hbound e he s hs
      omega
    · refine ⟨pre, g, post, hdec, by simp [chosenIcon, hg], hsc, hbound, ?_⟩
      intro e he hse
      exact lt_irrefl _ (hpre e he _ hse)
  obtain ⟨pre, g, post, hdec, _, hsc, hbound, _⟩ := key files h
  refine ⟨(scan files).x, hbound, ?_⟩
  intro files' hperm
  have h' : ∃ e ∈ files', ∃ s, score e = some s ∧ 0 < s := by
    obtain ⟨e, he, rest⟩ := h
    exact ⟨e, hperm.symm.subset he, rest⟩
  obtain ⟨pre', g', post', hdec', hch', hsc', hbound', hpre'⟩ := key files' h'
  have hgmem : g ∈ files' := hperm.symm.subset (by rw [hdec]; simp)
  have hgmem' : g' ∈ files := hperm.subset (by rw [hdec']; simp)
  have hxx : (scan files').x = (scan files).x :=
    le_antisymm (hbound g' hgmem' _ hsc') (hbound' g hgmem _ hsc)
  rw [hxx] at hsc' hpre'
  exact ⟨pre', g', post', hdec', hch', hsc', hpre'⟩

/-- C4: when some entry reaches the icon case and no entry name carries an
`AppIcon-<3 digits>` suffix, the scan chooses the last entry of the icon case in scan
order, and the loop leaves `err` nil. -/
theorem icon_scan_without_suffix_picks_last (files : List ZipFile)
    (h1 : ∃ e ∈ files, iconCase e = true)
    (h2 : ∀ e ∈ files, carriesSuffix e.Name = false) :
    ∃ pre g post, files = pre ++ g :: post ∧ iconCase g = true ∧
      (∀ e ∈ post, iconCase e = false) ∧ chosenIcon (scan files) = some g ∧
      (scan files).err = none := by
  obtain ⟨hmax, herr⟩ := scan_unscored files (fun e he => score_none_of_not_carries (h2 e he))
  rcases scan_iosIconFile files with ⟨hall, _⟩ | ⟨pre, g, post, hdec, hg, hpost, hicon⟩
  · obtain ⟨e, he, hic⟩ := h1
    rw [hall e he] at hic
    cases hic
  · exact ⟨pre, g, post, hdec, hg, hpost, by simp [chosenIcon, hmax, hicon], herr⟩

/-! ## The manifest and property-list entries found by the scan -/

theorem scanStep_xmlFile (st : ScanState) (f : ZipFile) (h : f.Name ≠ "AndroidManifest.xml") :
    (scanStep st f).xmlFile = st.xmlFile := by
  unfold scanStep
  simp only [h, if_false]
  repeat' split
  all_goals rfl

theorem scanStep_plistFile (st : ScanState) (f : ZipFile)
    (h : reInfoPlistMatchString f.Name = false) : (scanStep st f).plistFile = st.plistFile := by
  unfold scanStep
  simp only [h, Bool.false_eq_true, if_false]
  repeat' split
  all_goals rfl

theorem scanStep_plistFile_match (st : ScanState) (f : ZipFile)
    (h : reInfoPlistMatchString f.Name = true) : (scanStep st f).plistFile = some f := by
  have hn : f.Name ≠ "AndroidManifest.xml" := by
    intro hc
    rw [hc] at h
    revert h
    decide
  unfold scanStep
  simp [hn, h]

theorem scan_xmlFile_none (l : List ZipFile) (h : ∀ e ∈ l, e.Name ≠ "AndroidManifest.xml") :
    (scan l).xmlFile = none := by
  induction l using List.reverseRecOn with
  | nil => rfl
  | append_singleton l a ih =>
    rw [scan_snoc, scanStep_xmlFile _ _ (h a (by simp))]
    exact ih (fun e he => h e (List.mem_append.2 (Or.inl he)))

theorem scan_plistFile_none (l : List ZipFile)
    (h : ∀ e ∈ l, reInfoPlistMatchString e.Name = false) : (scan l).plistFile = none := by
  induction l using List.reverseRecOn with
  | nil => rfl
  | append_singleton l a ih =>
    rw [scan_snoc, scanStep_plistFile _ _ (h a (by simp))]
    exact ih (fun e he => h e (List.mem_append.2 (Or.inl he)))

theorem foldl_plistFile_keep (post : List ZipFile) (st : ScanState)
    (h : ∀ e ∈ post, reInfoPlistMatchString e.Name = false) :
    (post.foldl scanStep st).plistFile = st.plistFile := by
  induction post generalizing st with
  | nil => rfl
  | cons a post ih =>
    rw [List.foldl_cons, ih _ (fun e he => h e (List.mem_cons_of_mem _ he)),
      scanStep_plistFile _ _ (h a (List.mem_cons_self _ _))]

/-- The scan keeps the last entry that matches `reInfoPlist`. -/
theorem scan_plistFile_last (pre post : List ZipFile) (f : ZipFile)
    (hf : reInfoPlistMatchString f.Name = true)
    (hpost : ∀ e ∈ post, reInfoPlistMatchString e.Name = false) :
    (scan (pre ++ f :: post)).plistFile = some f := by
  unfold scan
  rw [List.foldl_append, List.foldl_cons, foldl_plistFile_keep post _ hpost,
    scanStep_plistFile_match _ _ hf]

/-! ## C1: a missing manifest or property list -/

/-- C1 (code defect): for a readable archive whose extension is `.apk` and that has no
entry named `AndroidManifest.xml`, or whose extension is `.ipa` and that has no entry
matching `reInfoPlist`, `NewAppParser` does not return at all: it dereferences the nil
descriptor, whatever the icon step returns. -/
theorem NewAppParser_missing_entry_panics (env : Env) (name : String) (file : OsFile)
    (stat : FileInfo) (files : List ZipFile)
    (hopen : env.osOpen name = .ok file) (hstat : file.Stat = .ok stat)
    (hzip : file.zipNewReader = .ok files)
    (h : (Ext stat.Name = androidExt ∧ ∀ e ∈ files, e.Name ≠ "AndroidManifest.xml") ∨
         (Ext stat.Name = iosExt ∧ ∀ e ∈ files, reInfoPlistMatchString e.Name = false)) :
    NewAppParser env name = Outcome.nilDeref := by
  unfold NewAppParser
  simp only [hopen, hstat, hzip]
  rcases h with ⟨hext, hno⟩ | ⟨hext, hno⟩
  · have hp : platformOf (Ext stat.Name) = Platform.android := by
      rw [hext]
      decide
    simp only [hp, androidPath, scan_xmlFile_none files hno, parseApkFile]
  · have hp : platformOf (Ext stat.Name) = Platform.ios := by
      rw [hext]
      decide
    simp only [hp, iosPath, scan_plistFile_none files hno, parseIpaFile]

/-- C1, at concrete packages: `app.apk` and `app.ipa` holding only `classes.dex`. -/
theorem NewAppParser_missing_entry_panics_witness :
    NewAppParser (world "app.apk" 22 bareArchive (.ok labelOnlyApk) helloPlist) "app.apk"
      = Outcome.nilDeref ∧
    NewAppParser (world "app.ipa" 22 bareArchive (.ok labelOnlyApk) helloPlist) "app.ipa"
      = Outcome.nilDeref :=
  ⟨NewAppParser_missing_entry_panics _ "app.apk" _ _ bareArchive rfl rfl rfl
      (Or.inl ⟨by decide, by decide⟩),
   NewAppParser_missing_entry_panics _ "app.ipa" _ _ bareArchive rfl rfl rfl
      (Or.inr ⟨by decide, by decide⟩)⟩

/-! ## C2: the fields read from the property list -/

theorem parseIpaFile_eq (env : Env) (f : ZipFile) (rc : ReadCloser) (buf : Bytes)
    (p : iosPlist) (ho : f.Open = .ok rc) (hr : rc.readAll = .ok buf)
    (hd : env.plistDecode buf = .ok p) :
    ∃ info, parseIpaFile env (some f) = (some info, none) ∧
      info = { Name := if p.CFBundleDisplayName = "" then p.CFBundleName
                       else p.CFBundleDisplayName,
               BundleID := p.CFBundleIDentifier, Version := p.CFBundleShortVersion,
               Build := p.CFBundleVersion } :=
  ⟨_, by simp only [parseIpaFile, ho, hr, hd], rfl⟩

/-- C2: when the property-list entry opens, reads and decodes to `p`, `parseIpaFile`
returns a descriptor and no error; its Name is the display name when that is not empty
and the bundle name otherwise, and BundleID, Version and Build are the identifier, the
short version and the bundle version of `p`. -/
theorem parseIpaFile_fields (env : Env) (f : ZipFile) (rc : ReadCloser) (buf : Bytes)
    (p : iosPlist) (ho : f.Open = .ok rc) (hr : rc.readAll = .ok buf)
    (hd : env.plistDecode buf = .ok p) :
    ∃ info, parseIpaFile env (some f) = (some info, none) ∧
      (p.CFBundleDisplayName ≠ "" → info.Name = p.CFBundleDisplayName) ∧
      (p.CFBundleDisplayName = "" → info.Name = p.CFBundleName) ∧
      info.BundleID = p.CFBundleIDentifier ∧ info.Version = p.CFBundleShortVersion ∧
      info.Build = p.CFBundleVersion := by
  refine ⟨{ Name := if p.CFBundleDisplayName = "" then p.CFBundleName
                     else p.CFBundleDisplayName,
             BundleID := p.CFBundleIDentifier, Version := p.CFBundleShortVersion,
             Build := p.CFBundleVersion }, ?_, ?_, ?_, rfl, rfl, rfl⟩
  · simp only [parseIpaFile, ho, hr, hd]
  · intro h
    simp [h]
  · intro h
    simp [h]

/-- C2, at the property list of the test package (no display name) and at one with a
display name. -/
theorem parseIpaFile_fields_witness :
    (∃ info, parseIpaFile (world "a.ipa" 9 plainIpa (.ok labelOnlyApk) helloPlist)
        (some (entry "Payload/A.app/Info.plist" [98, 112])) = (some info, none) ∧
      (helloPlist.CFBundleDisplayName ≠ "" → info.Name = helloPlist.CFBundleDisplayName) ∧
      (helloPlist.CFBundleDisplayName = "" → info.Name = helloPlist.CFBundleName) ∧
      info.BundleID = helloPlist.CFBundleIDentifier ∧
      info.Version = helloPlist.CFBundleShortVersion ∧
      info.Build = helloPlist.CFBundleVersion) ∧
    parseIpaFile (world "a.ipa" 9 plainIpa (.ok labelOnlyApk) helloPlist)
        (some (entry "Payload/A.app/Info.plist" [98, 112])) =
      (some { Name := "helloworld", BundleID := "com.kthcorp.helloworld", Version := "1.0",
              Build := "1.0" }, none) :=
  ⟨parseIpaFile_fields _ _ _ _ helloPlist rfl rfl rfl, by decide⟩

/-! ## C3 and C4 at concrete archives -/

/-- C3 (amended), at the entries `Payload/A.app/AppIcon-060.png`, `-120.png`, `-180.png`:
their scores are 60, 120 and 180, and in every order the scan chooses the `-180` entry. -/
theorem icon_scan_first_largest_score_witness :
    score icon060 = some 60 ∧ score icon120 = some 120 ∧ score icon180 = some 180 ∧
    ∀ files', List.Perm files' [icon060, icon120, icon180] →
      (chosenIcon (scan files')).map ZipFile.Name = some "Payload/A.app/AppIcon-180.png" := by
  have s60 : score icon060 = some 60 := by decide
  have s120 : score icon120 = some 120 := by decide
  have s180 : score icon180 = some 180 := by decide
  refine ⟨s60, s120, s180, ?_⟩
  obtain ⟨m, hbound, hall⟩ := icon_scan_first_largest_score [icon060, icon120, icon180]
    ⟨icon180, by simp, 180, s180, by decide⟩
  have hm : m = 180 := by
    obtain ⟨pre, g, post, hdec, _, hsc, _⟩ := hall _ (List.Perm.refl _)
    have hg : g ∈ [icon060, icon120, icon180] := by rw [hdec]; simp
    have h180 := hbound icon180 (by simp) 180 s180
    simp only [List.mem_cons, List.mem_singleton, List.not_mem_nil, or_false] at hg
    rcases hg with rfl | rfl | rfl
    · rw [s60] at hsc; cases hsc; omega
    · rw [s120] at hsc; cases hsc; omega
    · rw [s180] at hsc; cases hsc; rfl
  subst hm
  intro files' hperm
  obtain ⟨pre, g, post, hdec, hch, hsc, _⟩ := hall files' hperm
  have hg : g ∈ [icon060, icon120, icon180] := hperm.subset (by rw [hdec]; simp)
  simp only [List.mem_cons, List.mem_singleton, List.not_mem_nil, or_false] at hg
  rw [hch]
  rcases hg with rfl | rfl | rfl
  · rw [s60] at hsc; cases hsc
  · rw [s120] at hsc; cases hsc
  · rfl

/-- C3 as stated fails: the names `AppIcon-060.png`, `AppIcon-120.png`, `AppIcon-180.png`
have nothing before `AppIcon`, so `prexRegexp` rejects them and the scan keeps the last
one scanned (`AppIcon-120.png` here); and an entry with score `000` never becomes
`maxIosIconFile`, so a later entry without suffix is chosen. -/
theorem icon_scan_bare_names_pick_last :
    carriesSuffix "AppIcon-180.png" = true ∧
    (chosenIcon (scan [entry "AppIcon-180.png" [], entry "AppIcon-060.png" [],
        entry "AppIcon-120.png" []])).map ZipFile.Name = some "AppIcon-120.png" ∧
    carriesSuffix "x/AppIcon-000.png" = true ∧ carriesSuffix "x/AppIcon.png" = false ∧
    (chosenIcon (scan [entry "x/AppIcon-000.png" [], entry "x/AppIcon.png" []])).map
        ZipFile.Name = some "x/AppIcon.png" := by
  decide

/-- C4, at an archive with the icons `AppIcon60x60@2x.png` and `AppIcon76x76@2x~ipad.png`:
the scan chooses the second one. -/
theorem icon_scan_without_suffix_picks_last_witness :
    (∃ e ∈ unscoredIcons, iconCase e = true) ∧
    (∀ e ∈ unscoredIcons, carriesSuffix e.Name = false) ∧
    (∃ pre g post, unscoredIcons = pre ++ g :: post ∧ iconCase g = true ∧
      (∀ e ∈ post, iconCase e = false) ∧ chosenIcon (scan unscoredIcons) = some g ∧
      (scan unscoredIcons).err = none) ∧
    (chosenIcon (scan unscoredIcons)).map ZipFile.Name =
      some "Payload/A.app/AppIcon76x76@2x~ipad.png" :=
  ⟨by decide, by decide,
   icon_scan_without_suffix_picks_last unscoredIcons (by decide) (by decide), by decide⟩

/-! ## C5: an `.ipa` without icon entry -/

theorem chosenIcon_none_of_no_AppIcon (files : List ZipFile)
    (h : ∀ e ∈ files, Contains e.Name "AppIcon" = false) : chosenIcon (scan files) = none := by
  have hic : ∀ e ∈ files, iconCase e = false := by
    intro e he
    simp [iconCase, h e he]
  have hsc : ∀ e ∈ files, score e = none := by
    intro e he
    simp [score, hic e he]
  have hmax := (scan_unscored files hsc).1
  rcases scan_iosIconFile files with ⟨_, hnone⟩ | ⟨pre, g, post, hdec, hg, _, _⟩
  · simp [chosenIcon, hmax, hnone]
  · have := hic g (by rw [hdec]; simp)
    rw [hg] at this
    cases this

/-- C5 (amended): for a readable `.ipa` archive in which the last entry matching
`reInfoPlist` (the property-list entry the scan keeps) opens, reads and decodes, and no
entry of which contains `AppIcon`, `NewAppParser` returns the descriptor of `parseIpaFile`
with Icon nil and Size the file size, together with `ErrNoIcon`. -/
theorem NewAppParser_ipa_without_icon (env : Env) (name : String) (file : OsFile)
    (stat : FileInfo) (pre post : List ZipFile) (f : ZipFile) (rc : ReadCloser) (buf : Bytes)
    (p : iosPlist)
    (hopen : env.osOpen name = .ok file) (hstat : file.Stat = .ok stat)
    (hzip : file.zipNewReader = .ok (pre ++ f :: post)) (hext : Ext stat.Name = iosExt)
    (hf : reInfoPlistMatchString f.Name = true)
    (hpost : ∀ e ∈ post, reInfoPlistMatchString e.Name = false)
    (ho : f.Open = .ok rc) (hr : rc.readAll = .ok buf) (hd : env.plistDecode buf = .ok p)
    (hno : ∀ e ∈ pre ++ f :: post, Contains e.Name "AppIcon" = false) :
    ∃ info, parseIpaFile env (some f) = (some info, none) ∧
      NewAppParser env name =
        Outcome.ret (some { Name := info.Name, BundleID := info.BundleID,
                            Version := info.Version, Build := info.Build, Icon := none,
                            Size := stat.Size }) (some ErrNoIcon) := by
  obtain ⟨info, hinfo, _⟩ := parseIpaFile_eq env f rc buf p ho hr hd
  refine ⟨info, hinfo, ?_⟩
  have hp : platformOf (Ext stat.Name) = Platform.ios := by
    rw [hext]
    decide
  unfold NewAppParser
  simp only [hopen, hstat, hzip, hp, iosPath, scan_plistFile_last pre post f hf hpost,
    chosenIcon_none_of_no_AppIcon _ hno, hinfo, parseIpaIcon]

/-- C5 (amended), at `hello.ipa` (42 bytes) holding `Payload/A.app/Info.plist` and the
binary. -/
theorem NewAppParser_ipa_without_icon_witness :
    NewAppParser (world "hello.ipa" 42 plainIpa (.ok labelOnlyApk) helloPlist) "hello.ipa" =
      Outcome.ret (some { Name := "helloworld", BundleID := "com.kthcorp.helloworld",
                          Version := "1.0", Build := "1.0", Icon := none, Size := 42 })
        (some ErrNoIcon) := by
  obtain ⟨info, hinfo, hres⟩ := NewAppParser_ipa_without_icon
    (world "hello.ipa" 42 plainIpa (.ok labelOnlyApk) helloPlist) "hello.ipa" _ _
    [] [entry "Payload/A.app/A" [0]] (entry "Payload/A.app/Info.plist" [98, 112]) _ _
    helloPlist rfl rfl rfl (by decide) (by decide) (by decide) rfl rfl rfl (by decide)
  rw [hres]
  cases hinfo
  rfl

/-- C5 as stated fails: `hello.ipa` has the decodable entry `Payload/A.app/Info.plist`
and no entry containing `AppIcon`, but a later entry `Payload/B.app/Info.plist` also
matches `reInfoPlist` and cannot be read; the scan keeps the later one, `parseIpaFile`
returns nil for it, and `NewAppParser` dereferences the nil descriptor. -/
theorem NewAppParser_ipa_later_plist_unreadable :
    Ext "hello.ipa" = iosExt ∧
    twoPlistIpa.map ZipFile.Name =
      ["Payload/A.app/Info.plist", "Payload/A.app/A", "Payload/B.app/Info.plist"] ∧
    reInfoPlistMatchString "Payload/A.app/Info.plist" = true ∧
    parseIpaFile (world "hello.ipa" 42 twoPlistIpa (.ok labelOnlyApk) helloPlist)
        (some (entry "Payload/A.app/Info.plist" [98, 112])) =
      (some { Name := "helloworld", BundleID := "com.kthcorp.helloworld", Version := "1.0",
              Build := "1.0" }, none) ∧
    (∀ e ∈ twoPlistIpa, Contains e.Name "AppIcon" = false) ∧
    reInfoPlistMatchString "Payload/B.app/Info.plist" = true ∧
    NewAppParser (world "hello.ipa" 42 twoPlistIpa (.ok labelOnlyApk) helloPlist) "hello.ipa" =
      Outcome.nilDeref := by
  decide

/-! ## C6: dispatch on the extension -/

/-- C6: for a path that opens as a readable archive, `NewAppParser` goes the Android way
exactly when the extension of the file name is `.apk` and the iOS way exactly when it is
`.ipa`; for every other extension it returns nil and the `unknown platform` error,
whatever the entries are. -/
theorem NewAppParser_dispatch (env : Env) (name : String) (file : OsFile) (stat : FileInfo)
    (files : List ZipFile) (hopen : env.osOpen name = .ok file) (hstat : file.Stat = .ok stat)
    (hzip : file.zipNewReader = .ok files) :
    (platformOf (Ext stat.Name) = Platform.android ↔ Ext stat.Name = ".apk") ∧
    (platformOf (Ext stat.Name) = Platform.ios ↔ Ext stat.Name = ".ipa") ∧
    (Ext stat.Name = ".apk" →
      NewAppParser env name = androidPath env name (scan files).xmlFile stat) ∧
    (Ext stat.Name = ".ipa" →
      NewAppParser env name =
        iosPath env (scan files).plistFile (chosenIcon (scan files)) stat) ∧
    (Ext stat.Name ≠ ".apk" → Ext stat.Name ≠ ".ipa" →
      NewAppParser env name = Outcome.ret none (some (GoError.new "unknown platform"))) := by
  have hne : (".ipa" : String) ≠ ".apk" := by decide
  refine ⟨?_, ?_, ?_, ?_, ?_⟩
  · unfold platformOf androidExt iosExt
    by_cases h1 : Ext stat.Name = ".apk"
    · simp [h1]
    · by_cases h2 : Ext stat.Name = ".ipa"
      · simp [h1, h2]
      · simp [h1, h2]
  · unfold platformOf androidExt iosExt
    by_cases h1 : Ext stat.Name = ".apk"
    · simp [h1]
    · by_cases h2 : Ext stat.Name = ".ipa"
      · simp [h2, hne]
      · simp [h1, h2]
  · intro h
    unfold NewAppParser
    simp only [hopen, hstat, hzip, platformOf, androidExt, h, if_true]
  · intro h
    unfold NewAppParser
    simp only [hopen, hstat, hzip, platformOf, androidExt, iosExt, h, hne, if_true, if_false]
  · intro h1 h2
    unfold NewAppParser
    simp only [hopen, hstat, hzip, platformOf, androidExt, iosExt, h1, h2, if_false]

/-- C6, at `file.zip` holding a manifest: the extension is `.zip` and the call returns
nil and `unknown platform`. -/
theorem NewAppParser_dispatch_witness :
    Ext "file.zip" = ".zip" ∧
    NewAppParser (world "file.zip" 7 plainApk (.ok labelOnlyApk) helloPlist) "file.zip" =
      Outcome.ret none (some (GoError.new "unknown platform")) :=
  ⟨by decide,
   (NewAppParser_dispatch (world "file.zip" 7 plainApk (.ok labelOnlyApk) helloPlist)
      "file.zip" _ _ plainApk rfl rfl rfl).2.2.2.2 (by decide) (by decide)⟩

/-! ## C9: the bundle identifier -/

theorem parseApkFile_some {env : Env} {file : Option ZipFile} {info : AppInfo}
    {e : Option GoError} (h : parseApkFile env file = (some info, e)) : e = none := by
  cases file with
  | none => simp [parseApkFile] at h
  | some f =>
    cases hm : parseAndroidManifest env f with
    | error e => simp [parseApkFile, hm] at h
    | ok m =>
      simp only [parseApkFile, hm, Prod.mk.injEq] at h
      exact h.2.symm

theorem parseIpaFile_some {env : Env} {file : Option ZipFile} {info : AppInfo}
    {e : Option GoError} (h : parseIpaFile env file = (some info, e)) : e = none := by
  cases file with
  | none => simp [parseIpaFile] at h
  | some f =>
    cases ho : f.Open with
    | error e => simp [parseIpaFile, ho] at h
    | ok rc =>
      cases hr : rc.readAll with
      | error e => simp [parseIpaFile, ho, hr] at h
      | ok buf =>
        cases hd : env.plistDecode buf with
        | error e => simp [parseIpaFile, ho, hr, hd] at h
        | ok p =>
          simp only [parseIpaFile, ho, hr, hd, Prod.mk.injEq] at h
          exact h.2.symm

/-- Every descriptor `NewAppParser` returns carries the BundleID of the descriptor that
`parseApkFile` or `parseIpaFile` returned without error. -/
theorem NewAppParser_BundleID (env : Env) (name : String) (out : AppInfo)
    (err : Option GoError) (h : NewAppParser env name = Outcome.ret (some out) err) :
    ∃ file info, (parseApkFile env file = (some info, none) ∨
      parseIpaFile env file = (some info, none)) ∧ out.BundleID = info.BundleID := by
  unfold NewAppParser at h
  cases ho : env.osOpen name with
  | error e => simp [ho] at h
  | ok file =>
    cases hs : file.Stat with
    | error e => simp [ho, hs] at h
    | ok stat =>
      cases hz : file.zipNewReader with
      | error e => simp [ho, hs, hz] at h
      | ok files =>
        simp only [ho, hs, hz] at h
        cases hp : platformOf (Ext stat.Name) with
        | android =>
          simp only [hp, androidPath] at h
          cases hr : parseApkFile env (scan files).xmlFile with
          | mk o e =>
            cases o with
            | none => simp [hr] at h
            | some info =>
              simp only [hr, Outcome.ret.injEq, Option.some.injEq] at h
              have he := parseApkFile_some hr
              subst he
              refine ⟨_, info, Or.inl hr, ?_⟩
              rw [← h.1]
        | ios =>
          simp only [hp, iosPath] at h
          cases hr : parseIpaFile env (scan files).plistFile with
          | mk o e =>
            cases o with
            | none => simp [hr] at h
            | some info =>
              simp only [hr, Outcome.ret.injEq, Option.some.injEq] at h
              have he := parseIpaFile_some hr
              subst he
              refine ⟨_, info, Or.inr hr, ?_⟩
              rw [← h.1]
        | unknown => simp [hp] at h

/-- C9 (amended): when `parseApkFile` or `parseIpaFile` returns a descriptor without
error, its BundleID is the `package` attribute of the decoded manifest, respectively the
`CFBundleIdentifier` of the decoded property list: it is non-empty exactly when that
decoded identifier is non-empty. Every descriptor `NewAppParser` returns carries the
BundleID of such a descriptor. -/
theorem BundleID_is_decoded_identifier (env : Env) (file : Option ZipFile) (info : AppInfo) :
    (parseApkFile env file = (some info, none) →
      ∃ f m, file = some f ∧ parseAndroidManifest env f = .ok m ∧
        info.BundleID = m.Package ∧ (info.BundleID ≠ "" ↔ m.Package ≠ "")) ∧
    (parseIpaFile env file = (some info, none) →
      ∃ f rc buf p, file = some f ∧ f.Open = .ok rc ∧ rc.readAll = .ok buf ∧
        env.plistDecode buf = .ok p ∧ info.BundleID = p.CFBundleIDentifier ∧
        (info.BundleID ≠ "" ↔ p.CFBundleIDentifier ≠ "")) ∧
    (∀ name out err, NewAppParser env name = Outcome.ret (some out) err →
      ∃ file0 info0, (parseApkFile env file0 = (some info0, none) ∨
        parseIpaFile env file0 = (some info0, none)) ∧ out.BundleID = info0.BundleID) := by
  refine ⟨?_, ?_, fun name out err h => NewAppParser_BundleID env name out err h⟩
  · intro h
    cases file with
    | none => simp [parseApkFile] at h
    | some f =>
      cases hm : parseAndroidManifest env f with
      | error e => simp [parseApkFile, hm] at h
      | ok m =>
        simp only [parseApkFile, hm, Prod.mk.injEq, Option.some.injEq, and_true] at h
        subst h
        exact ⟨f, m, rfl, hm, rfl, Iff.rfl⟩
  · intro h
    cases file with
    | none => simp [parseIpaFile] at h
    | some f =>
      cases ho : f.Open with
      | error e => simp [parseIpaFile, ho] at h
      | ok rc =>
        cases hr : rc.readAll with
        | error e => simp [parseIpaFile, ho, hr] at h
        | ok buf =>
          cases hd : env.plistDecode buf with
          | error e => simp [parseIpaFile, ho, hr, hd] at h
          | ok p =>
            simp only [parseIpaFile, ho, hr, hd, Prod.mk.injEq, Option.some.injEq,
              and_true] at h
            subst h
            exact ⟨f, rc, buf, p, rfl, ho, hr, hd, rfl, Iff.rfl⟩

/-- C9 (amended), at the manifest and the property list of the test packages. -/
theorem BundleID_is_decoded_identifier_witness :
    (∃ f m, some (entry "AndroidManifest.xml" [3, 0, 8, 0]) = some f ∧
      parseAndroidManifest (world "a.apk" 9 plainApk (.ok labelOnlyApk) helloPlist) f = .ok m ∧
      "com.example.helloworld" = m.Package) ∧
    (∃ f rc buf p, some (entry "Payload/A.app/Info.plist" [98, 112]) = some f ∧
      f.Open = .ok rc ∧ rc.readAll = .ok buf ∧
      (world "a.apk" 9 plainApk (.ok labelOnlyApk) helloPlist).plistDecode buf = .ok p ∧
      "com.kthcorp.helloworld" = p.CFBundleIDentifier) := by
  constructor
  · obtain ⟨f, m, h1, h2, h3, _⟩ :=
      (BundleID_is_decoded_identifier (world "a.apk" 9 plainApk (.ok labelOnlyApk) helloPlist)
        (some (entry "AndroidManifest.xml" [3, 0, 8, 0]))
        { BundleID := "com.example.helloworld", Version := "1.0", Build := "1" }).1 rfl
    exact ⟨f, m, h1, h2, h3⟩
  · obtain ⟨f, rc, buf, p, h1, h2, h3, h4, h5, _⟩ :=
      (BundleID_is_decoded_identifier (world "a.apk" 9 plainApk (.ok labelOnlyApk) helloPlist)
        (some (entry "Payload/A.app/Info.plist" [98, 112]))
        { Name := "helloworld", BundleID := "com.kthcorp.helloworld", Version := "1.0",
          Build := "1.0" }).2.1 rfl
    exact ⟨f, rc, buf, p, h1, h2, h3, h4, h5⟩

/-- C9 as stated fails: a property list that is an empty dictionary decodes without
error, and `parseIpaFile` returns a descriptor whose BundleID is the empty string. -/
theorem parseIpaFile_empty_BundleID :
    parseIpaFile (world "a.ipa" 9 plainIpa (.ok labelOnlyApk) emptyPlist)
        (some (entry "Payload/A.app/Info.plist" [98, 112])) =
      (some { Name := "", BundleID := "", Version := "", Build := "" }, none) := by
  decide

/-! ## C10: the label when the icon is missing -/

/-- C10 (code defect): when the opened package yields no icon for density 720,
`parseApkIconAndLabel` returns `ErrNoIcon` with the empty label, whatever label the
resource table resolves, and the descriptor of `NewAppParser` has the empty Name. -/
theorem parseApkIconAndLabel_drops_label (env : Env) (name : String) (pkg : Apk)
    (hpkg : env.apkOpenFile name = .ok pkg) (hicon : (pkg.Icon { Density := 720 }).1 = none) :
    parseApkIconAndLabel env name = (none, "", some ErrNoIcon) ∧
    ∀ file stat files info, env.osOpen name = .ok file → file.Stat = .ok stat →
      file.zipNewReader = .ok files → Ext stat.Name = androidExt →
      parseApkFile env (scan files).xmlFile = (some info, none) →
      NewAppParser env name =
        Outcome.ret (some { info with Name := "", Icon := none, Size := stat.Size })
          (some ErrNoIcon) := by
  have hr : parseApkIconAndLabel env name = (none, "", some ErrNoIcon) := by
    simp only [parseApkIconAndLabel, hpkg, hicon]
  refine ⟨hr, ?_⟩
  intro file stat files info hopen hstat hzip hext hinfo
  have hp : platformOf (Ext stat.Name) = Platform.android := by
    rw [hext]
    decide
  unfold NewAppParser
  simp only [hopen, hstat, hzip, hp, androidPath, hinfo, hr]

/-- C10, at `hello.apk` whose resource table resolves the label `HelloWorld` and no
icon: the label is dropped and the Name of the descriptor is empty. -/
theorem parseApkIconAndLabel_drops_label_witness :
    (labelOnlyApk.Label { Density := 720 }).1 = "HelloWorld" ∧
    parseApkIconAndLabel (world "hello.apk" 42 plainApk (.ok labelOnlyApk) helloPlist)
      "hello.apk" = (none, "", some ErrNoIcon) ∧
    NewAppParser (world "hello.apk" 42 plainApk (.ok labelOnlyApk) helloPlist) "hello.apk" =
      Outcome.ret (some { Name := "", BundleID := "com.example.helloworld", Version := "1.0",
                          Build := "1", Icon := none, Size := 42 }) (some ErrNoIcon) :=
  ⟨rfl,
   (parseApkIconAndLabel_drops_label (world "hello.apk" 42 plainApk (.ok labelOnlyApk)
      helloPlist) "hello.apk" labelOnlyApk rfl rfl).1,
   (parseApkIconAndLabel_drops_label (world "hello.apk" 42 plainApk (.ok labelOnlyApk)
      helloPlist) "hello.apk" labelOnlyApk rfl rfl).2 _ _ plainApk
      { BundleID := "com.example.helloworld", Version := "1.0", Build := "1" }
      rfl rfl rfl (by decide) (by decide)⟩

/-! ## Facts about ASCII runes, by enumeration -/

theorem ascii_cases (P : Char → Prop) (h : ∀ n : Fin 128, P (Char.ofNat n)) (c : Char)
    (hc : c.toNat < 128) : P c := by
  have := h ⟨c.toNat, hc⟩
  simpa [Char.ofNat_toNat] using this

theorem isDigit_lt {c : Char} (h : c.isDigit = true) : c.toNat < 128 := by
  simp only [Char.isDigit, Bool.and_eq_true, decide_eq_true_eq] at h
  have h2 : c.toNat ≤ 57 := h.2
  omega

theorem isLower_lt {c : Char} (h : c.isLower = true) : c.toNat < 128 := by
  simp only [Char.isLower, Bool.and_eq_true, decide_eq_true_eq] at h
  have h2 : c.toNat ≤ 122 := h.2
  omega

theorem isUpper_lt {c : Char} (h : c.isUpper = true) : c.toNat < 128 := by
  simp only [Char.isUpper, Bool.and_eq_true, decide_eq_true_eq] at h
  have h2 : c.toNat ≤ 90 := h.2
  omega

theorem isAlphanum_lt {c : Char} (h : c.isAlphanum = true) : c.toNat < 128 := by
  simp only [Char.isAlphanum, Char.isAlpha, Bool.or_eq_true] at h
  rcases h with (h | h) | h
  · exact isUpper_lt h
  · exact isLower_lt h
  · exact isDigit_lt h

theorem mem_lt {c : Char} {l : List Char} (hl : ∀ x ∈ l, x.toNat < 128)
    (h : l.contains c = true) : c.toNat < 128 := by
  simp only [List.contains_eq_any_beq, List.any_eq_true, beq_iff_eq] at h
  obtain ⟨x, hx, hxc⟩ := h
  subst hxc
  exact hl _ hx

theorem segmentRune_lt {c : Char} (h : segmentRune c = true) : c.toNat < 128 := by
  simp only [segmentRune, Bool.or_eq_true] at h
  rcases h with h | h
  · exact isAlphanum_lt h
  · exact mem_lt (by decide) h

theorem hostRune_lt {c : Char} (h : hostRune c = true) : c.toNat < 128 := by
  simp only [hostRune, Bool.or_eq_true, beq_iff_eq] at h
  rcases h with (h | h) | h
  · exact isAlphanum_lt h
  · subst h; decide
  · subst h; decide

theorem isAlpha_lt {c : Char} (h : c.isAlpha = true) : c.toNat < 128 := by
  simp only [Char.isAlpha, Bool.or_eq_true] at h
  rcases h with h | h
  · exact isUpper_lt h
  · exact isLower_lt h

theorem schemeRune_lt {c : Char} (h : schemeRune c = true) : c.toNat < 128 := by
  simp only [schemeRune, Bool.or_eq_true, beq_iff_eq] at h
  rcases h with (((h | h) | h) | h) | h
  · exact isAlpha_lt h
  · exact isDigit_lt h
  · subst h; decide
  · subst h; decide
  · subst h; decide

theorem queryRune_lt {c : Char} (h : queryRune c = true) : c.toNat < 128 := by
  simp only [queryRune, Bool.and_eq_true, decide_eq_true_eq] at h
  omega

set_option maxRecDepth 100000 in
theorem segmentRune_table : ∀ n : Fin 128, segmentRune (Char.ofNat n) = true →
    (shouldEscape (Char.ofNat n) encoding.encodePath = false ∧ (Char.ofNat n) ≠ '/' ∧
     (Char.ofNat n) ≠ '?' ∧ (Char.ofNat n) ≠ '#' ∧ (Char.ofNat n) ≠ '%' ∧
     isSpace (Char.ofNat n) = false ∧ ¬ ((Char.ofNat n).toNat < 32) ∧
     (Char.ofNat n).toNat ≠ 127) := by
  decide

/-! ## Lemmas on the string functions -/

theorem Cut_not_mem (sep : Char) (l : List Char) (h : ∀ c ∈ l, c ≠ sep) :
    Cut sep l = (l, [], false) := by
  induction l with
  | nil => rfl
  | cons c cs ih =>
    have hc : (c == sep) = false := by simpa using h c (List.mem_cons_self _ _)
    have := ih (fun x hx => h x (List.mem_cons_of_mem _ hx))
    simp [Cut, hc, this]

theorem Cut_append (sep : Char) (l r : List Char) (h : ∀ c ∈ l, c ≠ sep) :
    Cut sep (l ++ sep :: r) = (l, r, true) := by
  induction l with
  | nil => simp [Cut]
  | cons c cs ih =>
    have hc : (c == sep) = false := by simpa using h c (List.mem_cons_self _ _)
    have := ih (fun x hx => h x (List.mem_cons_of_mem _ hx))
    simp [Cut, hc, this]

theorem dropWhile_none {p : Char → Bool} (l : List Char) (h : ∀ c ∈ l, p c = false) :
    l.dropWhile p = l := by
  cases l with
  | nil => rfl
  | cons c cs => simp [List.dropWhile, h c (List.mem_cons_self _ _)]

theorem TrimSpace_id (l : List Char) (h : ∀ c ∈ l, isSpace c = false) : TrimSpace l = l := by
  unfold TrimSpace
  rw [dropWhile_none l h, dropWhile_none l.reverse (fun c hc => h c (List.mem_reverse.1 hc)),
    List.reverse_reverse]

theorem Split_ne_nil (l : List Char) : Split l ≠ [] := by
  induction l with
  | nil => simp [Split]
  | cons c cs ih =>
    unfold Split
    split
    · simp
    · split
      · simp
      · simp

theorem Split_no_slash (l : List Char) (h : ∀ c ∈ l, c ≠ '/') : Split l = [l] := by
  induction l with
  | nil => rfl
  | cons c cs ih =>
    have hc : (c == '/') = false := by simpa using h c (List.mem_cons_self _ _)
    have := ih (fun x hx => h x (List.mem_cons_of_mem _ hx))
    simp [Split, hc, this]

theorem Split_append (l r : List Char) (h : ∀ c ∈ l, c ≠ '/') :
    Split (l ++ '/' :: r) = l :: Split r := by
  induction l with
  | nil => simp [Split]
  | cons c cs ih =>
    have hc : (c == '/') = false := by simpa using h c (List.mem_cons_self _ _)
    have := ih (fun x hx => h x (List.mem_cons_of_mem _ hx))
    simp [Split, hc, this]

/-- Splitting `s0/s1/.../sn` gives back the segments. -/
theorem Split_slashed (s : List Char) (segs : List (List Char)) (hs : ∀ c ∈ s, c ≠ '/')
    (h : ∀ t ∈ segs, ∀ c ∈ t, c ≠ '/') : Split (s ++ slashed segs) = s :: segs := by
  induction segs generalizing s with
  | nil => simpa [slashed] using Split_no_slash s hs
  | cons t rest ih =>
    have := ih t (h t (List.mem_cons_self _ _)) (fun u hu => h u (List.mem_cons_of_mem _ hu))
    simp only [slashed]
    rw [Split_append s _ hs, this]

theorem escape_id (l : List Char) (mode : encoding)
    (h : ∀ c ∈ l, c.toNat < 128 ∧ shouldEscape c mode = false) : escape l mode = l := by
  induction l with
  | nil => rfl
  | cons c cs ih =>
    have hc := h c (List.mem_cons_self _ _)
    have := ih (fun x hx => h x (List.mem_cons_of_mem _ hx))
    unfold escape at this ⊢
    simp [List.flatMap_cons, hc.1, hc.2, this]

theorem schemeTail_append (cs rest : List Char) (h : ∀ c ∈ cs, schemeRune c = true) :
    schemeTail (cs ++ ':' :: rest) = some (cs, rest) := by
  induction cs with
  | nil => simp [schemeTail]
  | cons c cs ih =>
    have hc := h c (List.mem_cons_self _ _)
    have hne : (c == ':') = false := by
      have := ascii_cases (fun c => schemeRune c = true → (c == ':') = false) (by decide) c
        (schemeRune_lt hc)
      exact this hc
    have hok : (c.isAlpha || c.isDigit || c == '+' || c == '-' || c == '.') = true := hc
    have := ih (fun x hx => h x (List.mem_cons_of_mem _ hx))
    simp [schemeTail, hne, hok, this]

theorem joinBuf_nonempty (segs : List (List Char)) (buf : List Char) (hb : buf ≠ []) :
    joinBuf segs buf = buf ++ slashed segs := by
  induction segs generalizing buf with
  | nil => simp [joinBuf, slashed]
  | cons s rest ih =>
    have hlen : buf.length > 0 := List.length_pos.2 hb
    have hlen' : 0 < buf.length := hlen
    simp only [joinBuf, hlen', decide_True, Bool.true_or, if_true, slashed]
    rw [ih _ (by simp)]
    simp

/-! ## `path.Clean` and `path.Join` on clean segments -/

theorem isSegment_iff (s : List Char) :
    isSegment s = true ↔ s ≠ [] ∧ s ≠ ['.'] ∧ s ≠ ['.', '.'] ∧ ∀ c ∈ s, segmentRune c = true := by
  simp [isSegment, and_assoc]

theorem segmentRune_facts {c : Char} (h : segmentRune c = true) :
    shouldEscape c encoding.encodePath = false ∧ c ≠ '/' ∧ c ≠ '?' ∧ c ≠ '#' ∧ c ≠ '%' ∧
      isSpace c = false ∧ ¬ (c.toNat < 32) ∧ c.toNat ≠ 127 :=
  ascii_cases (fun c => segmentRune c = true →
    (shouldEscape c encoding.encodePath = false ∧ c ≠ '/' ∧ c ≠ '?' ∧ c ≠ '#' ∧ c ≠ '%' ∧
      isSpace c = false ∧ ¬ (c.toNat < 32) ∧ c.toNat ≠ 127)) segmentRune_table c
    (segmentRune_lt h) h

theorem cleanLoop_nil (r b : Bool) (rout : List Char) (dd : Nat) :
    cleanLoop r b [] rout dd = rout := by
  cases b <;> rfl

theorem cleanLoop_true_cons (r : Bool) (c : Char) (rest rout : List Char) (dd : Nat) :
    cleanLoop r true (c :: rest) rout dd =
      if c == '/' then cleanLoop r false rest rout dd
      else cleanLoop r true rest (c :: rout) dd := rfl

theorem cleanLoop_false_cons (r : Bool) (c : Char) (rest rout : List Char) (dd : Nat) :
    cleanLoop r false (c :: rest) rout dd =
    if c == '/' then cleanLoop r false rest rout dd
    else if c == '.' && atElemEnd rest then cleanLoop r false rest rout dd
    else
      match rest with
      | [] => cleanLoop r true []
          (c :: (if (r && rout.length != 1) || (!r && rout.length != 0)
                 then '/' :: rout else rout)) dd
      | d :: rest2 =>
        if c == '.' && d == '.' && atElemEnd rest2 then
          if rout.length > dd then cleanLoop r false rest2 (backtrack dd rout) dd
          else if !r then
            cleanLoop r false rest2
              ('.' :: '.' :: (if rout.length > 0 then '/' :: rout else rout))
              (('.' :: '.' :: (if rout.length > 0 then '/' :: rout else rout)).length)
          else cleanLoop r false rest2 rout dd
        else cleanLoop r true (d :: rest2)
          (c :: (if (r && rout.length != 1) || (!r && rout.length != 0)
                 then '/' :: rout else rout)) dd := by
  cases rest <;> rfl
theorem cleanLoop_inElem (r : Bool) (t rest rout : List Char) (dd : Nat)
    (ht : ∀ c ∈ t, c ≠ '/') :
    cleanLoop r true (t ++ rest) rout dd = cleanLoop r true rest (t.reverse ++ rout) dd := by
  induction t generalizing rout with
  | nil => rfl
  | cons c t ih =>
    have hc : (c == '/') = false := by simpa using ht c (List.mem_cons_self _ _)
    have := ih (c :: rout) (fun x hx => ht x (List.mem_cons_of_mem _ hx))
    rw [List.cons_append, cleanLoop_true_cons, this]
    simp [hc]

/-- At the start of a clean segment the loop of `Clean` writes a separating slash, if
something was written before, and copies the segment. -/
theorem cleanLoop_segment (s rest rout : List Char) (dd : Nat) (hs : isSegment s = true) :
    cleanLoop false false (s ++ rest) rout dd =
      cleanLoop false true rest (s.reverse ++ (if rout.length != 0 then '/' :: rout else rout))
        dd := by
  obtain ⟨hne, hdot, hdotdot, hall⟩ := (isSegment_iff s).1 hs
  have hslash : ∀ c ∈ s, c ≠ '/' := fun c hc => (segmentRune_facts (hall c hc)).2.1
  cases s with
  | nil => exact absurd rfl hne
  | cons c t =>
    have hc : (c == '/') = false := by simpa using hslash c (List.mem_cons_self _ _)
    have ht : ∀ x ∈ t, x ≠ '/' := fun x hx => hslash x (List.mem_cons_of_mem _ hx)
    have key : cleanLoop false true (t ++ rest)
        (c :: (if rout.length != 0 then '/' :: rout else rout)) dd =
        cleanLoop false true rest
          ((c :: t).reverse ++ (if rout.length != 0 then '/' :: rout else rout)) dd := by
      rw [cleanLoop_inElem false t rest _ dd ht]
      simp
    rw [← key, List.cons_append, cleanLoop_false_cons]
    cases t with
    | nil =>
      have hcd : (c == '.') = false := by
        cases h : c == '.'
        · rfl
        · exact absurd (by simpa using h) (fun hh : c = '.' => hdot (by rw [hh]))
      cases rest with
      | nil => simp [hc, hcd]
      | cons e rest2 => simp [hc, hcd]
    | cons d t2 =>
      have hd : d ≠ '/' := ht d (List.mem_cons_self _ _)
      have h1 : atElemEnd (d :: (t2 ++ rest)) = false := by simp [atElemEnd, hd]
      have h2 : (c == '.' && d == '.' && atElemEnd (t2 ++ rest)) = false := by
        cases t2 with
        | nil =>
          have : ¬ (c = '.' ∧ d = '.') := by
            rintro ⟨rfl, rfl⟩
            exact hdotdot rfl
          cases hc1 : c == '.'
          · simp
          · cases hd1 : d == '.'
            · simp
            · exact absurd ⟨by simpa using hc1, by simpa using hd1⟩ this
        | cons e t3 =>
          have he : e ≠ '/' := ht e (by simp)
          simp [atElemEnd, he]
      simp only [List.cons_append, hc, h1, h2, Bool.and_false, Bool.false_eq_true, if_false,
        Bool.false_and, Bool.not_false, Bool.true_and, Bool.false_or]

/-- On `s0/s1/.../sn` with clean segments the loop of `Clean` copies the text. -/
theorem cleanLoop_slashed (more : List (List Char)) (s rout : List Char) (dd : Nat)
    (hs : isSegment s = true) (hmore : ∀ m ∈ more, isSegment m = true) :
    (cleanLoop false false (s ++ slashed more) rout dd).reverse =
      (if rout.length != 0 then '/' :: rout else rout).reverse ++ (s ++ slashed more) := by
  induction more generalizing s rout with
  | nil =>
    rw [cleanLoop_segment s _ rout dd hs]
    simp [slashed, cleanLoop_nil]
  | cons m more ih =>
    rw [cleanLoop_segment s _ rout dd hs]
    have hne : s ≠ [] := ((isSegment_iff s).1 hs).1
    have hlen : (s.reverse ++ (if rout.length != 0 then '/' :: rout else rout)).length ≠ 0 := by
      simp [hne]
    have := ih m (s.reverse ++ (if rout.length != 0 then '/' :: rout else rout))
      (hmore m (List.mem_cons_self _ _)) (fun x hx => hmore x (List.mem_cons_of_mem _ hx))
    simp only [slashed, cleanLoop_true_cons, beq_self_eq_true, if_true]
    rw [this]
    have hb : ((s.reverse ++ (if rout.length != 0 then '/' :: rout else rout)).length != 0)
        = true := by simpa using hlen
    rw [if_pos hb]
    simp

theorem Clean_slashed (s : List Char) (more : List (List Char)) (hs : isSegment s = true)
    (hmore : ∀ m ∈ more, isSegment m = true) : Clean (s ++ slashed more) = s ++ slashed more := by
  have h := cleanLoop_slashed more s [] 0 hs hmore
  simp only [List.length_nil, bne_self_eq_false, Bool.false_eq_true, if_false,
    List.reverse_nil, List.nil_append] at h
  obtain ⟨hne, _, _, hall⟩ := (isSegment_iff s).1 hs
  cases s with
  | nil => exact absurd rfl hne
  | cons c t =>
    have hc : (c == '/') = false := by
      simpa using (segmentRune_facts (hall c (List.mem_cons_self _ _))).2.1
    have hnonempty : (cleanLoop false false (c :: t ++ slashed more) [] 0).isEmpty = false := by
      cases hr : cleanLoop false false (c :: t ++ slashed more) [] 0 with
      | nil => rw [hr] at h; simp at h
      | cons _ _ => rfl
    simp only [List.cons_append] at h hnonempty ⊢
    simp only [Clean, hc, Bool.false_eq_true, if_false, hnonempty, h]

/-- Joining `cn` and clean segments gives `cn/s1/.../sn`. -/
theorem Join_cn (segs : List (List Char)) (h : ∀ m ∈ segs, isSegment m = true) :
    Join (['c', 'n'] :: segs) = 'c' :: 'n' :: slashed segs := by
  have hj : joinBuf (['c', 'n'] :: segs) [] = ['c', 'n'] ++ slashed segs := by
    simp only [joinBuf, List.length_nil, gt_iff_lt, lt_self_iff_false, decide_False,
      List.isEmpty_cons, Bool.not_false, Bool.or_true, if_true, if_false, List.nil_append]
    exact joinBuf_nonempty segs _ (by simp)
  unfold Join
  rw [hj, Clean_slashed ['c', 'n'] segs (by decide) h]
  simp

/-! ## `url.Parse` on a store URL -/

theorem hostRune_facts {c : Char} (h : hostRune c = true) :
    shouldEscape c encoding.encodeHost = false ∧ c ≠ '/' ∧ c ≠ '?' ∧ c ≠ '#' ∧ c ≠ '%' ∧
      c ≠ '@' ∧ c ≠ '[' ∧ c ≠ ':' ∧ ¬ (c.toNat < 32) ∧ c.toNat ≠ 127 :=
  ascii_cases (fun c => hostRune c = true →
    (shouldEscape c encoding.encodeHost = false ∧ c ≠ '/' ∧ c ≠ '?' ∧ c ≠ '#' ∧ c ≠ '%' ∧
      c ≠ '@' ∧ c ≠ '[' ∧ c ≠ ':' ∧ ¬ (c.toNat < 32) ∧ c.toNat ≠ 127)) (by decide) c
    (hostRune_lt h) h

theorem schemeRune_facts {c : Char} (h : schemeRune c = true) :
    schemeRune c.toLower = true ∧ c.toLower.toLower = c.toLower ∧
      (c.isAlpha = true → c.toLower.isAlpha = true) ∧ c ≠ '#' ∧ ¬ (c.toNat < 32) ∧
      c.toNat ≠ 127 :=
  ascii_cases (fun c => schemeRune c = true →
    (schemeRune c.toLower = true ∧ c.toLower.toLower = c.toLower ∧
      (c.isAlpha = true → c.toLower.isAlpha = true) ∧ c ≠ '#' ∧ ¬ (c.toNat < 32) ∧
      c.toNat ≠ 127)) (by decide) c (schemeRune_lt h) h

theorem queryRune_facts {c : Char} (h : queryRune c = true) :
    c ≠ '#' ∧ ¬ (c.toNat < 32) ∧ c.toNat ≠ 127 := by
  simp only [queryRune, Bool.and_eq_true, decide_eq_true_eq, bne_iff_ne] at h
  refine ⟨h.2, ?_, ?_⟩ <;> omega

theorem isAlpha_schemeRune {c : Char} (h : c.isAlpha = true) : schemeRune c = true := by
  simp [schemeRune, h]

theorem mem_slashed {c : Char} {segs : List (List Char)} (h : c ∈ slashed segs) :
    c = '/' ∨ ∃ s ∈ segs, c ∈ s := by
  induction segs with
  | nil => simp [slashed] at h
  | cons s rest ih =>
    simp only [slashed, List.mem_cons, List.mem_append] at h
    rcases h with h | h | h
    · exact Or.inl h
    · exact Or.inr ⟨s, List.mem_cons_self _ _, h⟩
    · rcases ih h with h | ⟨t, ht, hc⟩
      · exact Or.inl h
      · exact Or.inr ⟨t, List.mem_cons_of_mem _ ht, hc⟩

/-- The runes of a path `/<s0>/<s1>/.../<sn>` made of segments. -/
theorem path_rune {c : Char} {segs : List (List Char)}
    (hsegs : ∀ s ∈ segs, isSegment s = true) (h : c ∈ slashed segs) :
    c = '/' ∨ segmentRune c = true := by
  rcases mem_slashed h with h | ⟨s, hs, hc⟩
  · exact Or.inl h
  · exact Or.inr (((isSegment_iff s).1 (hsegs s hs)).2.2.2 c hc)

theorem path_rune_facts {c : Char} (h : c = '/' ∨ segmentRune c = true) :
    c.toNat < 128 ∧ shouldEscape c encoding.encodePath = false ∧ c ≠ '?' ∧ c ≠ '#' ∧ c ≠ '%' ∧
      isSpace c = false ∧ ¬ (c.toNat < 32) ∧ c.toNat ≠ 127 := by
  rcases h with rfl | h
  · decide
  · obtain ⟨h1, _, h3, h4, h5, h6, h7, h8⟩ := segmentRune_facts h
    exact ⟨segmentRune_lt h, h1, h3, h4, h5, h6, h7, h8⟩

/-- The split of the query: `ForceQuery`, the text before `?` and `RawQuery`. -/
theorem query_split (X query : List Char) (hX : ∀ c ∈ X, c ≠ '?') :
    ((X ++ '?' :: query).getLast? == some '?' && (X ++ '?' :: query).count '?' == 1)
      = query.isEmpty ∧
    (Cut '?' (X ++ '?' :: query)).1 = X ∧ (Cut '?' (X ++ '?' :: query)).2.1 = query ∧
    (X ++ ['?']).dropLast = X := by
  have hcount : X.count '?' = 0 := List.count_eq_zero.2 (fun h => hX _ h rfl)
  refine ⟨?_, by rw [Cut_append _ _ _ hX], by rw [Cut_append _ _ _ hX], by simp⟩
  cases query with
  | nil => simp [hcount]
  | cons q qs =>
    simp
    intro h
    have hmem : '?' ∈ q :: qs := List.mem_of_getLast?_eq_some h
    have hpos : 0 < (q :: qs).count '?' := List.count_pos_iff.2 hmem
    omega

/-- Without `?` there is no query and `ForceQuery` stays false. -/
theorem query_none (X : List Char) (hX : ∀ c ∈ X, c ≠ '?') :
    (X.getLast? == some '?' && X.count '?' == 1) = false ∧
    (Cut '?' X).1 = X ∧ (Cut '?' X).2.1 = [] := by
  have hcount : X.count '?' = 0 := List.count_eq_zero.2 (fun h => hX _ h rfl)
  refine ⟨?_, by rw [Cut_not_mem _ _ hX], by rw [Cut_not_mem _ _ hX]⟩
  simp [hcount]

theorem isScheme_iff (s : List Char) :
    isScheme s = true ↔ ∃ c cs, s = c :: cs ∧ c.isAlpha = true ∧ ∀ x ∈ cs, schemeRune x = true := by
  cases s with
  | nil => simp [isScheme]
  | cons c cs =>
    simp only [isScheme, Bool.and_eq_true, List.all_eq_true, List.cons.injEq]
    constructor
    · intro h
      exact ⟨c, cs, ⟨rfl, rfl⟩, h⟩
    · rintro ⟨c1, cs1, ⟨rfl, rfl⟩, h⟩
      exact h

theorem isHost_iff (h : List Char) :
    isHost h = true ↔ h ≠ [] ∧ ∀ c ∈ h, hostRune c = true := by
  simp [isHost]

theorem contains_false {l : List Char} {a : Char} (h : ∀ c ∈ l, c ≠ a) :
    l.contains a = false := by
  simp only [List.contains_eq_any_beq, List.any_eq_false, beq_iff_eq]
  intro x hx hh
  exact h x hx hh.symm

theorem parseAuthority_host (host : List Char) (hh : isHost host = true) :
    parseAuthority host = some (.ok host) := by
  obtain ⟨hne, hall⟩ := (isHost_iff host).1 hh
  have hat : host.contains '@' = false :=
    contains_false (fun x hx => (hostRune_facts (hall x hx)).2.2.2.2.2.1)
  have hpct : host.contains '%' = false :=
    contains_false (fun x hx => (hostRune_facts (hall x hx)).2.2.2.2.1)
  have hbr : (host.head? == some '[') = false := by
    cases host with
    | nil => rfl
    | cons c cs =>
      have := (hostRune_facts (hall c (List.mem_cons_self _ _))).2.2.2.2.2.2.1
      simpa using this
  have hcolon : ∀ l : List Char, (∀ c ∈ l, c ≠ ':') → fromLastColon l = none := by
    intro l
    induction l with
    | nil => intro _; rfl
    | cons c cs ih =>
      intro h
      have hc : (c == ':') = false := by simpa using h c (List.mem_cons_self _ _)
      simp [fromLastColon, ih (fun x hx => h x (List.mem_cons_of_mem _ hx)), hc]
  have hnc : ∀ c ∈ host, c ≠ ':' := fun c hc => (hostRune_facts (hall c hc)).2.2.2.2.2.2.2.1
  have hcount : host.count ':' = 0 := List.count_eq_zero.2 (fun h => hnc _ h rfl)
  have hesc : (host.any fun c => shouldEscape c encoding.encodeHost) = false := by
    simp only [List.any_eq_false]
    intro x hx
    simp [(hostRune_facts (hall x hx)).1]
  simp only [parseAuthority, parseHost, hat, hpct, hbr, hcolon host hnc, hcount, hesc,
    Bool.false_eq_true, if_false, Bool.or_false, gt_iff_lt, Nat.not_lt_zero, decide_False,
    Nat.lt_irrefl, not_lt_zero']

theorem setPath_plain (u : URL) (p : List Char)
    (h : ∀ c ∈ p, c = '/' ∨ segmentRune c = true) :
    URL.setPath u p = some { u with Path := p, RawPath := [] } := by
  have hpct : p.contains '%' = false :=
    contains_false (fun x hx => (path_rune_facts (h x hx)).2.2.2.2.1)
  have hesc : escape p encoding.encodePath = p :=
    escape_id p _ (fun c hc => ⟨(path_rune_facts (h c hc)).1, (path_rune_facts (h c hc)).2.1⟩)
  simp only [URL.setPath, hpct, hesc, Bool.false_eq_true, if_false, beq_self_eq_true, if_true]

theorem urlOf_eq (scheme host : List Char) (segs : List (List Char))
    (query : Option (List Char)) :
    urlOf scheme host segs query =
      scheme ++ ':' :: ('/' :: '/' :: (host ++ slashed segs) ++ queryPart query) := by
  simp [urlOf]

theorem isQueryOpt_rune {query : Option (List Char)} (hq : isQueryOpt query = true) :
    ∀ c ∈ queryPart query, c = '?' ∨ queryRune c = true := by
  cases query with
  | none => simp [queryPart]
  | some q =>
    intro c hc
    simp only [queryPart, List.mem_cons] at hc
    rcases hc with rfl | hc
    · exact Or.inl rfl
    · right
      have : ∀ c ∈ q, queryRune c = true := by simpa [isQueryOpt, isQuery] using hq
      exact this c hc

/-- Every rune of a store URL is ASCII, not a control rune and not `#`. -/
theorem urlOf_rune (scheme host : List Char) (segs : List (List Char))
    (query : Option (List Char)) (hs : isScheme scheme = true) (hh : isHost host = true)
    (hsegs : ∀ s ∈ segs, isSegment s = true) (hq : isQueryOpt query = true) :
    ∀ c ∈ urlOf scheme host segs query,
      c.toNat < 128 ∧ c ≠ '#' ∧ ¬ (c.toNat < 32) ∧ c.toNat ≠ 127 := by
  obtain ⟨c0, cs, rfl, hc0, hcs⟩ := (isScheme_iff scheme).1 hs
  obtain ⟨_, hhall⟩ := (isHost_iff host).1 hh
  intro c hc
  simp only [urlOf, List.mem_cons, List.mem_append, List.cons_append] at hc
  rcases hc with rfl | hc | rfl | rfl | rfl | hc | hc | hc
  · have := schemeRune_facts (isAlpha_schemeRune hc0)
    exact ⟨isAlpha_lt hc0, this.2.2.2.1, this.2.2.2.2⟩
  · have := schemeRune_facts (hcs c hc)
    exact ⟨schemeRune_lt (hcs c hc), this.2.2.2.1, this.2.2.2.2⟩
  · decide
  · decide
  · decide
  · have := hostRune_facts (hhall c hc)
    exact ⟨hostRune_lt (hhall c hc), this.2.2.2.1, this.2.2.2.2.2.2.2.2⟩
  · have := path_rune_facts (path_rune hsegs hc)
    exact ⟨this.1, this.2.2.2.1, this.2.2.2.2.2.2⟩
  · rcases isQueryOpt_rune hq c hc with rfl | h
    · decide
    · exact ⟨queryRune_lt h, queryRune_facts h⟩

/-- What `parse` reads from `scheme://host/<s0>/.../<sn>` with or without `?<query>`. -/
theorem parseNoFragment_urlOf (scheme host s0 : List Char) (more : List (List Char))
    (query : Option (List Char)) (hs : isScheme scheme = true) (hh : isHost host = true)
    (hsegs : ∀ s ∈ s0 :: more, isSegment s = true) (hq : isQueryOpt query = true) :
    parseNoFragment (urlOf scheme host (s0 :: more) query) =
      some (.ok { Scheme := lowerScheme scheme, Host := host, Path := slashed (s0 :: more),
                  ForceQuery := query == some [], RawQuery := query.getD [] }) := by
  have hrune := urlOf_rune scheme host (s0 :: more) query hs hh hsegs hq
  obtain ⟨c0, cs, rfl, hc0, hcs⟩ := (isScheme_iff scheme).1 hs
  obtain ⟨hhne, hhall⟩ := (isHost_iff host).1 hh
  have hP : ∀ c ∈ slashed (s0 :: more), c = '/' ∨ segmentRune c = true :=
    fun c hc => path_rune hsegs hc
  have hX : ∀ c ∈ '/' :: '/' :: (host ++ slashed (s0 :: more)), c ≠ '?' := by
    intro c hc
    simp only [List.mem_cons, List.mem_append] at hc
    rcases hc with rfl | rfl | hc | hc
    · decide
    · decide
    · exact (hostRune_facts (hhall c hc)).2.2.1
    · exact (path_rune_facts (hP c hc)).2.2.1
  have hraw := urlOf_eq (c0 :: cs) host (s0 :: more) query
  have hctl' : (urlOf (c0 :: cs) host (s0 :: more) query).any
      (fun c => decide (c.toNat < 32) || c.toNat == 127) = false := by
    simp only [List.any_eq_false]
    intro c hc
    have := hrune c hc
    simp [this.2.2.1, this.2.2.2]
  have hstar : (urlOf (c0 :: cs) host (s0 :: more) query == ['*']) = false := by
    rw [hraw]
    simp
  have hgs : getScheme (urlOf (c0 :: cs) host (s0 :: more) query) =
      .ok (c0 :: cs, '/' :: '/' :: (host ++ slashed (s0 :: more)) ++ queryPart query) := by
    rw [hraw]
    simp [getScheme, hc0, schemeTail_append cs _ hcs]
  have hlow : (c0 :: cs).map Char.toLower = lowerScheme (c0 :: cs) := rfl
  have hlne : (lowerScheme (c0 :: cs)).isEmpty = false := rfl
  have hcutA : Cut '/' (host ++ slashed (s0 :: more)) = (host, s0 ++ slashed more, true) :=
    Cut_append '/' host _ (fun c hc => (hostRune_facts (hhall c hc)).2.1)
  have hpath : ('/' :: (s0 ++ slashed more)) = slashed (s0 :: more) := rfl
  unfold parseNoFragment
  rw [hctl', hstar]
  simp only [Bool.false_eq_true, if_false, hgs, hlow, hlne]
  cases query with
  | none =>
    obtain ⟨hforce, hcut1, hcut2⟩ := query_none _ hX
    simp only [queryPart, List.append_nil, hforce, hcut1, hcut2, Bool.false_eq_true, if_false]
    simp [hasLit, hcutA, parseAuthority_host host hh, hpath, setPath_plain _ _ hP]
  | some q =>
    obtain ⟨hforce, hcut1, hcut2, hdrop⟩ := query_split _ q hX
    simp only [queryPart, hforce, hcut1, hcut2]
    cases q with
    | nil =>
      simp only [List.isEmpty_nil, if_true, hdrop]
      simp [hasLit, hcutA, parseAuthority_host host hh, hpath, setPath_plain _ _ hP]
    | cons q qs =>
      simp only [List.isEmpty_cons, Bool.false_eq_true, if_false]
      simp [hasLit, hcutA, parseAuthority_host host hh, hpath, setPath_plain _ _ hP]

/-- What `url.Parse` reads from `scheme://host/<s0>/.../<sn>` with or without `?<query>`. -/
theorem Parse_urlOf (scheme host s0 : List Char) (more : List (List Char))
    (query : Option (List Char)) (hs : isScheme scheme = true) (hh : isHost host = true)
    (hsegs : ∀ s ∈ s0 :: more, isSegment s = true) (hq : isQueryOpt query = true) :
    Parse (urlOf scheme host (s0 :: more) query) =
      some (.ok { Scheme := lowerScheme scheme, Host := host, Path := slashed (s0 :: more),
                  ForceQuery := query == some [], RawQuery := query.getD [] }) := by
  have hrune := urlOf_rune scheme host (s0 :: more) query hs hh hsegs hq
  have hascii : (urlOf scheme host (s0 :: more) query).any (fun c => decide (c.toNat ≥ 128))
      = false := by
    simp only [List.any_eq_false]
    intro c hc
    have := (hrune c hc).1
    simp
    omega
  have hcut : Cut '#' (urlOf scheme host (s0 :: more) query) =
      (urlOf scheme host (s0 :: more) query, [], false) :=
    Cut_not_mem '#' _ (fun c hc => (hrune c hc).2.1)
  unfold Parse
  rw [hascii, hcut]
  simp only [Bool.false_eq_true, if_false,
    parseNoFragment_urlOf scheme host s0 more query hs hh hsegs hq, List.isEmpty_nil, if_true]

/-- The text `String` writes for a URL with scheme, host name, a path of clean segments
without leading slash, and the query read by `Parse`. -/
theorem String_segments (scheme host s0 : List Char) (more : List (List Char))
    (query : Option (List Char)) (hs : isScheme scheme = true) (hh : isHost host = true)
    (hsegs : ∀ s ∈ s0 :: more, isSegment s = true) :
    URL.String { Scheme := lowerScheme scheme, Host := host, Path := s0 ++ slashed more,
                 ForceQuery := query == some [], RawQuery := query.getD [] } =
      urlOf (lowerScheme scheme) host (s0 :: more) query := by
  have hP : ∀ c ∈ s0 ++ slashed more, c = '/' ∨ segmentRune c = true := by
    intro c hc
    exact path_rune hsegs (by simp [slashed, hc])
  have hescP : escape (s0 ++ slashed more) encoding.encodePath = s0 ++ slashed more :=
    escape_id _ _ (fun c hc => ⟨(path_rune_facts (hP c hc)).1, (path_rune_facts (hP c hc)).2.1⟩)
  obtain ⟨c0, cs, rfl, _, _⟩ := (isScheme_iff scheme).1 hs
  obtain ⟨hhne, hhall⟩ := (isHost_iff host).1 hh
  have hescH : escape host encoding.encodeHost = host :=
    escape_id _ _ (fun c hc => ⟨hostRune_lt (hhall c hc), (hostRune_facts (hhall c hc)).1⟩)
  have hhemp : host.isEmpty = false := by
    cases host with
    | nil => exact absurd rfl hhne
    | cons _ _ => rfl
  obtain ⟨hs0ne, _, _, hs0all⟩ := (isSegment_iff s0).1 (hsegs s0 (List.mem_cons_self _ _))
  cases s0 with
  | nil => exact absurd rfl hs0ne
  | cons a t =>
    have ha : a ≠ '/' := (segmentRune_facts (hs0all a (List.mem_cons_self _ _))).2.1
    simp only [List.cons_append] at hescP
    have hstar' : a ≠ '*' := by
      intro h
      have := hs0all a (List.mem_cons_self _ _)
      rw [h] at this
      revert this
      decide
    cases query with
    | none =>
      simp [URL.String, URL.EscapedPath, hescP, hescH, hhemp, hstar', ha, urlOf, slashed,
        lowerScheme, queryPart]
    | some q =>
      cases q with
      | nil =>
        simp [URL.String, URL.EscapedPath, hescP, hescH, hhemp, hstar', ha, urlOf, slashed,
          lowerScheme, queryPart]
      | cons x xs =>
        simp [URL.String, URL.EscapedPath, hescP, hescH, hhemp, hstar', ha, urlOf, slashed,
          lowerScheme, queryPart]

/-- The body of `Cn` on `scheme://host/<s0>/.../<sn>` with or without `?<query>`: with a
segment after the first one, the first one becomes `cn`; with none, the URL stays. -/
theorem cnRunes_urlOf (scheme host s0 : List Char) (more : List (List Char))
    (query : Option (List Char)) (hs : isScheme scheme = true) (hh : isHost host = true)
    (hsegs : ∀ s ∈ s0 :: more, isSegment s = true) (hq : isQueryOpt query = true) :
    cnRunes (urlOf scheme host (s0 :: more) query) =
      some (urlOf (lowerScheme scheme) host
        (if more.isEmpty then [s0] else ['c', 'n'] :: more) query) := by
  have hP : ∀ c ∈ slashed (s0 :: more), c = '/' ∨ segmentRune c = true :=
    fun c hc => path_rune hsegs hc
  have htrim : TrimSpace (slashed (s0 :: more)) = slashed (s0 :: more) :=
    TrimSpace_id _ (fun c hc => (path_rune_facts (hP c hc)).2.2.2.2.2.1)
  have hs0 := hsegs s0 (List.mem_cons_self _ _)
  have hmore : ∀ s ∈ more, isSegment s = true := fun s h => hsegs s (List.mem_cons_of_mem _ h)
  have hsplit : Split (slashed (s0 :: more)) = [] :: s0 :: more := by
    have h1 : Split (s0 ++ slashed more) = s0 :: more :=
      Split_slashed s0 more
        (fun c hc => (segmentRune_facts (((isSegment_iff s0).1 hs0).2.2.2 c hc)).2.1)
        (fun t ht c hc => (segmentRune_facts (((isSegment_iff t).1 (hmore t ht)).2.2.2 c hc)).2.1)
    simp [slashed, Split, h1]
  unfold cnRunes
  rw [Parse_urlOf scheme host s0 more query hs hh hsegs hq]
  simp only [htrim, hsplit]
  cases more with
  | nil =>
    have hjoin : Join [[], s0] = s0 := by
      have hne : s0 ≠ [] := ((isSegment_iff s0).1 hs0).1
      have hlen : s0.length ≠ 0 := by simpa using hne
      have hemp : s0.isEmpty = false := by
        cases s0 with
        | nil => exact absurd rfl hne
        | cons _ _ => rfl
      have hc := Clean_slashed s0 [] hs0 (by simp)
      simp only [slashed, List.append_nil] at hc
      simp [Join, joinBuf, hlen, hemp, hc]
    have hstr := String_segments scheme host s0 [] query hs hh hsegs
    simp only [slashed, List.append_nil] at hstr
    simp [hjoin, hstr]
  | cons m ms =>
    have hsegs2 : ∀ s ∈ ['c', 'n'] :: m :: ms, isSegment s = true := by
      intro s h
      rcases List.mem_cons.1 h with rfl | h
      · decide
      · exact hmore s h
    have hstr := String_segments scheme host ['c', 'n'] (m :: ms) query hs hh hsegs2
    simp only [List.cons_append, List.nil_append] at hstr
    simp [Join_cn (m :: ms) hmore, hstr]

theorem storeURL_eq_urlOf (scheme host region : List Char) (segs : List (List Char))
    (query : List Char) :
    storeURL scheme host region segs query = urlOf scheme host (region :: segs) (some query) := by
  simp [storeURL, urlOf, slashed, queryPart]

theorem cnURL_eq_urlOf (scheme host : List Char) (segs : List (List Char))
    (query : List Char) :
    cnURL scheme host segs query = urlOf scheme host (['c', 'n'] :: segs) (some query) := by
  simp [cnURL, urlOf, slashed, queryPart]

/-- The body of `Cn` on `scheme://host/<region>/<s1>/.../<sn>?<query>` with at least one
segment after the region. -/
theorem cnRunes_storeURL (scheme host region : List Char) (segs : List (List Char))
    (query : List Char) (hs : isScheme scheme = true) (hh : isHost host = true)
    (hr : isSegment region = true) (hn : segs ≠ []) (hsegs : ∀ s ∈ segs, isSegment s = true)
    (hq : isQuery query = true) :
    cnRunes (storeURL scheme host region segs query) =
      some (cnURL (lowerScheme scheme) host segs query) := by
  have hall : ∀ s ∈ region :: segs, isSegment s = true := by
    intro s h
    rcases List.mem_cons.1 h with rfl | h
    · exact hr
    · exact hsegs s h
  have hemp : segs.isEmpty = false := by
    cases segs with
    | nil => exact absurd rfl hn
    | cons _ _ => rfl
  rw [storeURL_eq_urlOf, cnURL_eq_urlOf,
    cnRunes_urlOf scheme host region segs (some query) hs hh hall hq]
  simp [hemp]

theorem isScheme_lowerScheme (scheme : List Char) (hs : isScheme scheme = true) :
    isScheme (lowerScheme scheme) = true ∧ lowerScheme (lowerScheme scheme) = lowerScheme scheme := by
  obtain ⟨c0, cs, rfl, hc0, hcs⟩ := (isScheme_iff scheme).1 hs
  have h0 := schemeRune_facts (isAlpha_schemeRune hc0)
  have hall : ∀ l : List Char, (∀ x ∈ l, schemeRune x = true) →
      (∀ x ∈ l.map Char.toLower, schemeRune x = true) ∧
      (l.map Char.toLower).map Char.toLower = l.map Char.toLower := by
    intro l
    induction l with
    | nil => intro _; exact ⟨by simp, rfl⟩
    | cons a l ih =>
      intro h
      have ha := schemeRune_facts (h a (List.mem_cons_self _ _))
      obtain ⟨i1, i2⟩ := ih (fun x hx => h x (List.mem_cons_of_mem _ hx))
      refine ⟨?_, ?_⟩
      · intro x hx
        simp only [List.map_cons, List.mem_cons] at hx
        rcases hx with rfl | hx
        · exact ha.1
        · exact i1 x hx
      · simp only [List.map_cons, ha.2.1, i2]
  obtain ⟨j1, j2⟩ := hall cs hcs
  refine ⟨?_, ?_⟩
  · refine (isScheme_iff _).2 ⟨c0.toLower, cs.map Char.toLower, rfl, h0.2.2.1 hc0, j1⟩
  · simp only [lowerScheme, List.map_cons, h0.2.1, j2]

/-! ## C7 and C8: `StoreURL.Cn` -/

/-- C7 (amended): for a store URL `scheme://host/<region>/<s1>/.../<sn>?<query>` with a
host name, n >= 1 and segments that are non-empty, not `.` or `..` and free of runes that
need escaping, `Cn` returns `scheme://host/cn/<s1>/.../<sn>?<query>` with the scheme in
lower case: the first path segment is replaced by `cn`, and the host, the other segments
in order and the query are unchanged. -/
theorem Cn_replaces_region (scheme host region : List Char) (segs : List (List Char))
    (query : List Char) (hs : isScheme scheme = true) (hh : isHost host = true)
    (hr : isSegment region = true) (hn : segs ≠ []) (hsegs : ∀ s ∈ segs, isSegment s = true)
    (hq : isQuery query = true) :
    StoreURL.Cn (String.mk (storeURL scheme host region segs query)) =
      some (String.mk (cnURL (lowerScheme scheme) host segs query)) := by
  unfold StoreURL.Cn
  rw [cnRunes_storeURL scheme host region segs query hs hh hr hn hsegs hq]
  rfl

/-- C7 (amended), at the URL of `TestStoreURL_Cn` and at the same URL with the scheme in
upper case. -/
theorem Cn_replaces_region_witness :
    StoreURL.Cn "https://apps.apple.com/us/app/teamkit/id1421743514?uo=4" =
      some "https://apps.apple.com/cn/app/teamkit/id1421743514?uo=4" ∧
    StoreURL.Cn "HTTPS://apps.apple.com/us/app/teamkit/id1421743514?uo=4" =
      some "https://apps.apple.com/cn/app/teamkit/id1421743514?uo=4" :=
  ⟨Cn_replaces_region "https".data "apps.apple.com".data "us".data
    ["app".data, "teamkit".data, "id1421743514".data] "uo=4".data
    (by decide) (by decide) (by decide) (by decide) (by decide) (by decide),
   Cn_replaces_region "HTTPS".data "apps.apple.com".data "us".data
    ["app".data, "teamkit".data, "id1421743514".data] "uo=4".data
    (by decide) (by decide) (by decide) (by decide) (by decide) (by decide)⟩

/-- C7 as stated fails: `url.Parse` lowers the case of the scheme, so a store URL of the
stated form whose scheme is `HTTPS` comes back with the scheme `https`. -/
theorem Cn_lowers_scheme :
    "HTTPS://apps.apple.com/us/app/teamkit/id1421743514?uo=4" =
      String.mk (storeURL "HTTPS".data "apps.apple.com".data "us".data
        ["app".data, "teamkit".data, "id1421743514".data] "uo=4".data) ∧
    StoreURL.Cn "HTTPS://apps.apple.com/us/app/teamkit/id1421743514?uo=4" =
      some "https://apps.apple.com/cn/app/teamkit/id1421743514?uo=4" ∧
    StoreURL.Cn "HTTPS://apps.apple.com/us/app/teamkit/id1421743514?uo=4" ≠
      some "HTTPS://apps.apple.com/cn/app/teamkit/id1421743514?uo=4" := by
  decide

/-- C8 (amended): on a store URL `scheme://host/<s0>/<s1>/.../<sn>`, with or without
`?<query>`, with a host name, n >= 0 and segments that are non-empty, not `.` or `..` and
free of runes that need escaping, applying `Cn` to the result of `Cn` gives that result
again. -/
theorem Cn_idempotent_on_store_form (scheme host s0 : List Char) (more : List (List Char))
    (query : Option (List Char)) (hs : isScheme scheme = true) (hh : isHost host = true)
    (hsegs : ∀ s ∈ s0 :: more, isSegment s = true) (hq : isQueryOpt query = true) :
    ∃ t, StoreURL.Cn (String.mk (urlOf scheme host (s0 :: more) query)) = some t ∧
      StoreURL.Cn t = some t := by
  obtain ⟨hs2, hlow⟩ := isScheme_lowerScheme scheme hs
  have hs0 := hsegs s0 (List.mem_cons_self _ _)
  have hmore : ∀ s ∈ more, isSegment s = true := fun s h => hsegs s (List.mem_cons_of_mem _ h)
  refine ⟨String.mk (urlOf (lowerScheme scheme) host
    (if more.isEmpty then [s0] else ['c', 'n'] :: more) query), ?_, ?_⟩
  · unfold StoreURL.Cn
    rw [cnRunes_urlOf scheme host s0 more query hs hh hsegs hq]
    rfl
  · unfold StoreURL.Cn
    cases more with
    | nil =>
      simp only [List.isEmpty_nil, if_true]
      rw [cnRunes_urlOf (lowerScheme scheme) host s0 [] query hs2 hh hsegs hq, hlow]
      rfl
    | cons m ms =>
      have hsegs2 : ∀ s ∈ ['c', 'n'] :: m :: ms, isSegment s = true := by
        intro s h
        rcases List.mem_cons.1 h with rfl | h
        · decide
        · exact hmore s h
      simp only [List.isEmpty_cons, Bool.false_eq_true, if_false]
      rw [cnRunes_urlOf (lowerScheme scheme) host ['c', 'n'] (m :: ms) query hs2 hh hsegs2 hq,
        hlow]
      rfl

/-- C8 (amended), at the URL `https://apps.apple.com/cn/app/x/id1?uo=4`, which `Cn`
returns unchanged, and at the same URL with the region `us`. -/
theorem Cn_idempotent_on_store_form_witness :
    StoreURL.Cn "https://apps.apple.com/cn/app/x/id1?uo=4" =
      some "https://apps.apple.com/cn/app/x/id1?uo=4" ∧
    ∃ t, StoreURL.Cn "https://apps.apple.com/us/app/x/id1?uo=4" = some t ∧
      StoreURL.Cn t = some t :=
  ⟨by decide,
   Cn_idempotent_on_store_form "https".data "apps.apple.com".data "us".data
    ["app".data, "x".data, "id1".data] (some "uo=4".data)
    (by decide) (by decide) (by decide) (by decide)⟩

/-- C8 as stated fails: on a store URL with a `..` segment, and on a URL without host,
the second application of `Cn` removes one more segment. -/
theorem Cn_not_idempotent :
    StoreURL.Cn "https://apps.apple.com/us/../app/x" = some "https://apps.apple.com/app/x" ∧
    StoreURL.Cn "https://apps.apple.com/app/x" = some "https://apps.apple.com/cn/x" ∧
    StoreURL.Cn "a/b/c/d" = some "cn/c/d" ∧ StoreURL.Cn "cn/c/d" = some "cn/d" := by
  decide

end Ipapk
